import Mathlib

/-!
Verification development for ss-tiktok-scrapper.

Shallow embedding of `src/sstiktok.go`.

* Go strings are modelled as Lean `String`s (sequences of Unicode scalar values); the
  regular-expression engine works on their character lists.
* The three regular expressions of the `const` block are translated constructor by
  constructor into the type `Regex`.  Every repetition operand occurring in them is a
  single-character class, so `star` and `plus` take a class.
* `run` is a backtracking matcher that lists the possible outcomes of matching at one
  position in priority order (Go: leftmost-first semantics, greedy operators prefer more);
  `find` tries the start positions from left to right.
* `goquery` and `net/http` are external: a parsed document is a table from selector
  to selection, the network is a table of outcomes.
-/

namespace SSTik

/-! ## Character classes of Go's `regexp/syntax` (Perl flags) -/

/-- The quote character U+0027. -/
def sq : Char := Char.ofNat 39

/-- The double quote character U+0022. -/
def dq : Char := Char.ofNat 34

/-- Class `\d`: ASCII decimal digits. -/
def isDigitC (c : Char) : Bool := c.isDigit

/-- Class `\w`: ASCII letters, digits and underscore. -/
def isWordC (c : Char) : Bool := c.isAlphanum || c == '_'

/-- Class `\s`: tab, newline, form feed, carriage return, space. -/
def isSpaceC (c : Char) : Bool :=
  c == '\t' || c == '\n' || c == Char.ofNat 12 || c == '\r' || c == ' '

/-- Class `.` without the `s` flag: everything but newline. -/
def isDotC (c : Char) : Bool := c != '\n'

/-- Class `[^']`. -/
def notSq (c : Char) : Bool := c != sq

/-- Class `[^"']`. -/
def notQuote (c : Char) : Bool := c != dq && c != sq

/-- Class `["']`. -/
def isQuote (c : Char) : Bool := c == dq || c == sq

/-! ## Regular expressions and the backtracking matcher -/

/-- The fragment of Go regular expressions used by the program. -/
inductive Regex where
  | eps : Regex
  | cls (p : Char → Bool) : Regex
  | seq (a b : Regex) : Regex
  | alt (a b : Regex) : Regex
  | opt (a : Regex) : Regex
  | star (p : Char → Bool) : Regex
  | plus (p : Char → Bool) : Regex
  | wordB : Regex
  | group (n : Nat) (a : Regex) : Regex

/-- A matcher thread: the character just before the position, the remaining input and the
capture groups recorded so far (most recent first). -/
structure Cursor where
  prev : Option Char
  rest : List Char
  caps : List (Nat × List Char)
  deriving DecidableEq, Repr

/-- Whether the (possibly absent) character is a word character, for `\b`. -/
def isWordAt : Option Char → Bool
  | none => false
  | some c => isWordC c

/-- Greedy repetition of a class: the outcomes, longest first. -/
def starRun (p : Char → Bool) (prev : Option Char) (caps : List (Nat × List Char)) :
    List Char → List Cursor
  | [] => [⟨prev, [], caps⟩]
  | c :: cs =>
    if p c then starRun p (some c) caps cs ++ [⟨prev, c :: cs, caps⟩]
    else [⟨prev, c :: cs, caps⟩]

/-- All outcomes of matching `r` at the cursor, in priority order. -/
def run : Regex → Cursor → List Cursor
  | .eps, s => [s]
  | .cls p, s =>
    match s.rest with
    | [] => []
    | c :: cs => if p c then [⟨some c, cs, s.caps⟩] else []
  | .seq a b, s => (run a s).flatMap (fun t => run b t)
  | .alt a b, s => run a s ++ run b s
  | .opt a, s => run a s ++ [s]
  | .star p, s => starRun p s.prev s.caps s.rest
  | .plus p, s =>
    match s.rest with
    | [] => []
    | c :: cs => if p c then starRun p (some c) s.caps cs else []
  | .wordB, s => if isWordAt s.prev != isWordAt s.rest.head? then [s] else []
  | .group n a, s =>
    (run a s).map (fun t =>
      { t with caps := (n, s.rest.take (s.rest.length - t.rest.length)) :: t.caps })

/-- Leftmost match: the first start position with an outcome, and its preferred outcome.
Returns the input remaining at the start of the match and the final cursor. -/
def find (r : Regex) : Option Char → List Char → Option (List Char × Cursor)
  | prev, [] => ((run r ⟨prev, [], []⟩).head?).map (fun t => ([], t))
  | prev, c :: cs =>
    match (run r ⟨prev, c :: cs, []⟩).head? with
    | some t => some (c :: cs, t)
    | none => find r (some c) cs

/-- Number of capture groups of an expression. -/
def Regex.numGroups : Regex → Nat
  | .seq a b => a.numGroups + b.numGroups
  | .alt a b => a.numGroups + b.numGroups
  | .opt a => a.numGroups
  | .group _ a => a.numGroups + 1
  | _ => 0

/-- Go `(*Regexp).MatchString`. -/
def matchString (r : Regex) (s : String) : Bool :=
  (find r none s.toList).isSome

/-- Go `(*Regexp).FindStringSubmatch`: the empty slice when there is no match, otherwise
the text of the leftmost match followed by the text of each group (empty for a group that
did not take part). -/
def findStringSubmatch (r : Regex) (s : String) : List String :=
  match find r none s.toList with
  | none => []
  | some (start, t) =>
    String.mk (start.take (start.length - t.rest.length)) ::
      (List.range r.numGroups).map (fun i => String.mk ((t.caps.lookup (i + 1)).getD []))

/-- A literal string. -/
def lit : List Char → Regex
  | [] => .eps
  | [c] => .cls (fun x => x == c)
  | c :: cs => .seq (.cls (fun x => x == c)) (lit cs)

/-! ## The patterns of the `const` block -/

/-- The scheme and host part: `https:\/\/(?:m|www|vm|vt|lite)?\.?tiktok\.com\/`. -/
def hostPattern : Regex :=
  .seq (lit "https://".toList)
    (.seq (.opt (.alt (lit "m".toList) (.alt (lit "www".toList) (.alt (lit "vm".toList)
        (.alt (lit "vt".toList) (lit "lite".toList))))))
      (.seq (.opt (lit ".".toList)) (lit "tiktok.com/".toList)))

/-- The keyword part: `(?:(?:usr|v|embed|user|video|photo)\/|\?shareId=|\&item_id=)`. -/
def keyPattern : Regex :=
  .alt
    (.seq (.alt (lit "usr".toList) (.alt (lit "v".toList) (.alt (lit "embed".toList)
        (.alt (lit "user".toList) (.alt (lit "video".toList) (lit "photo".toList))))))
      (lit "/".toList))
    (.alt (lit "?shareId=".toList) (lit "&item_id=".toList))

/-- The first path alternative: `(?:.*\b(?:...)(\d+))`. -/
def idPathPattern : Regex :=
  .seq (.star isDotC) (.seq .wordB (.seq keyPattern (.group 2 (.plus isDigitC))))

/-- The constant `tiktokURLPattern`. -/
def tiktokURLPattern : Regex :=
  .seq hostPattern (.group 1 (.alt idPathPattern (.plus isWordC)))

/-- The constant `ssstikTokenPattern`: `s_tt\s*=\s*'([^']+)'`. -/
def ssstikTokenPattern : Regex :=
  .seq (lit "s_tt".toList) (.seq (.star isSpaceC) (.seq (lit "=".toList)
    (.seq (.star isSpaceC) (.seq (lit [sq]) (.seq (.group 1 (.plus notSq)) (lit [sq]))))))

/-- The constant `overlayURLPattern`:
`#mainpicture \.result_overlay\s*{\s*background-image:\s*url\(["']?([^"']+)["']?\);\s*}`. -/
def overlayURLPattern : Regex :=
  .seq (lit "#mainpicture .result_overlay".toList) (.seq (.star isSpaceC)
    (.seq (lit "\x7b".toList) (.seq (.star isSpaceC)
      (.seq (lit "background-image:".toList) (.seq (.star isSpaceC)
        (.seq (lit "url(".toList) (.seq (.opt (.cls isQuote))
          (.seq (.group 1 (.plus notQuote)) (.seq (.opt (.cls isQuote))
            (.seq (lit ");".toList) (.seq (.star isSpaceC) (lit "\x7d".toList))))))))))))

/-- Go `validateTikTokURL`. -/
def validateTikTokURL (url : String) : Bool :=
  matchString tiktokURLPattern url

/-! ## Declarative semantics of the expressions -/

/-- The last character of `w`, or `prev` when `w` is empty. -/
def lastOr : Option Char → List Char → Option Char
  | prev, [] => prev
  | _, c :: cs => lastOr (some c) cs

/-- The first character of `w`, or `nxt` when `w` is empty. -/
def headOr : List Char → Option Char → Option Char
  | [], nxt => nxt
  | c :: _, _ => some c

/-- `Sem r prev w nxt cs`: the expression `r` matches exactly the word `w` when the
character before it is `prev` and the character after it is `nxt`, recording the capture
groups `cs` (most recent first). -/
def Sem : Regex → Option Char → List Char → Option Char → List (Nat × List Char) → Prop
  | .eps, _, w, _, cs => w = [] ∧ cs = []
  | .cls p, _, w, _, cs => (∃ c, w = [c] ∧ p c = true) ∧ cs = []
  | .seq a b, prev, w, nxt, cs =>
    ∃ u v ca cb, w = u ++ v ∧ Sem a prev u (headOr v nxt) ca ∧
      Sem b (lastOr prev u) v nxt cb ∧ cs = cb ++ ca
  | .alt a b, prev, w, nxt, cs => Sem a prev w nxt cs ∨ Sem b prev w nxt cs
  | .opt a, prev, w, nxt, cs => Sem a prev w nxt cs ∨ (w = [] ∧ cs = [])
  | .star p, _, w, _, cs => (∀ c ∈ w, p c = true) ∧ cs = []
  | .plus p, _, w, _, cs => w ≠ [] ∧ (∀ c ∈ w, p c = true) ∧ cs = []
  | .wordB, prev, w, nxt, cs => w = [] ∧ isWordAt prev ≠ isWordAt nxt ∧ cs = []
  | .group n a, prev, w, nxt, cs => ∃ ca, Sem a prev w nxt ca ∧ cs = (n, w) :: ca

/-- Whether the expression can match the empty word. -/
def Regex.nullable : Regex → Bool
  | .eps => true
  | .cls _ => false
  | .seq a b => a.nullable && b.nullable
  | .alt a b => a.nullable || b.nullable
  | .opt _ => true
  | .star _ => true
  | .plus _ => false
  | .wordB => true
  | .group _ a => a.nullable

/-- A syntactic check that no `\b` of the expression can look at the character before the
match: every `\b` comes after a part that consumes input. -/
def Regex.leftSafe : Regex → Bool
  | .wordB => false
  | .seq a b => a.leftSafe && (b.leftSafe || !a.nullable)
  | .alt a b => a.leftSafe && b.leftSafe
  | .opt a => a.leftSafe
  | .group _ a => a.leftSafe
  | _ => true

/-- A syntactic check that no `\b` of the expression can look at the character after the
match: every `\b` comes before a part that consumes input. -/
def Regex.rightSafe : Regex → Bool
  | .wordB => false
  | .seq a b => b.rightSafe && (a.rightSafe || !b.nullable)
  | .alt a b => a.rightSafe && b.rightSafe
  | .opt a => a.rightSafe
  | .group _ a => a.rightSafe
  | _ => true

/-- The host names of the allow-list, as listed in the specification. -/
def allowedHosts : List String :=
  ["tiktok.com", "m.tiktok.com", "www.tiktok.com", "vm.tiktok.com", "vt.tiktok.com",
    "lite.tiktok.com"]

/-- The path keywords of the pattern. -/
def pathKeywords : List String := ["usr", "v", "embed", "user", "video", "photo"]

/-! ## The program -/

/-- The constant `baseURL`. -/
def baseURL : String := "https://ssstik.io"

/-- Lines 73-80 of `extractToken`: the regex step applied to the homepage body. -/
def extractTokenFrom (body : String) : Except String String :=
  let «matches» := findStringSubmatch ssstikTokenPattern body
  if «matches».length < 2 then .error "unable to extract SSSTik token"
  else .ok («matches».getD 1 "")

/-- Lines 84-85 of `scrapeSSSTik`: `fmt.Sprintf("id=%s&locale=en&tt=%s", url, token)`. -/
def formData (url token : String) : String :=
  "id=" ++ url ++ "&locale=en&tt=" ++ token

/-- An element as `goquery` exposes it: its combined text content and its attributes. -/
structure Node where
  text : String
  attrs : List (String × String)
  deriving DecidableEq, Repr

/-- A `goquery` selection: the matched elements in document order. -/
abbrev Selection := List Node

/-- A parsed HTML document, seen through `Find`: the selection of each selector. -/
structure Document where
  find : String → Selection

/-- The `goquery` method `Text`: the combined text of all matched elements. -/
def Selection.text (s : Selection) : String := String.join (s.map Node.text)

/-- The `goquery` method `Eq` for a non-negative index. -/
def Selection.eq (s : Selection) (i : Nat) : Selection :=
  match s.get? i with
  | some n => [n]
  | none => []

/-- The `goquery` method `Attr`: the attribute of the first matched element and whether
it exists. -/
def Selection.attr (s : Selection) (name : String) : String × Bool :=
  match s with
  | [] => ("", false)
  | n :: _ =>
    match n.attrs.lookup name with
    | some v => (v, true)
    | none => ("", false)

/-- Go `unicode.IsSpace`. -/
def goIsSpace (c : Char) : Bool :=
  let n := c.toNat
  (9 ≤ n && n ≤ 13) || n == 32 || n == 0x85 || n == 0xA0 || n == 0x1680 ||
    (0x2000 ≤ n && n ≤ 0x200A) || n == 0x2028 || n == 0x2029 || n == 0x202F ||
    n == 0x205F || n == 0x3000

/-- Go `strings.TrimSpace`. -/
def trimSpace (s : String) : String :=
  String.mk (((s.toList.dropWhile goIsSpace).reverse.dropWhile goIsSpace).reverse)

/-- The map `statistics` of the result. -/
structure Statistics where
  likeCount : String
  commentCount : String
  shareCount : String
  deriving DecidableEq, Repr

/-- The map `downloads` of the result. -/
structure Downloads where
  avatarUrl : String
  overlayUrl : String
  videoUrl : String
  musicUrl : String
  deriving DecidableEq, Repr

/-- The map returned by `scrapeSSSTik`. -/
structure Result where
  username : String
  description : String
  statistics : Statistics
  downloads : Downloads
  deriving DecidableEq, Repr

/-- Lines 119-126 of `scrapeSSSTik`: the overlay scan of the style text. -/
def overlayURLOf (styleContent : String) : String :=
  let overlayMatch := findStringSubmatch overlayURLPattern styleContent
  if overlayMatch.length > 1 then overlayMatch.getD 1 "" else ""

/-- Lines 109-143 of `scrapeSSSTik`: field extraction from the parsed document. -/
def extractFields (doc : Document) : Result :=
  let username := trimSpace (doc.find "h2").text
  let description := trimSpace (doc.find ".maintext").text
  let likeCount :=
    trimSpace ((doc.find "div.trending-actions > div.justify-content-start").eq 0).text
  let commentCount :=
    trimSpace (doc.find "div.trending-actions > div.justify-content-center > div").text
  let shareCount :=
    trimSpace (doc.find "div.trending-actions > div.justify-content-end > div").text
  let avatarURL := ((doc.find "img.result_author").attr "src").1
  let videoURL := ((doc.find "a.without_watermark").attr "href").1
  let musicURL := ((doc.find "a.music").attr "href").1
  let overlayURL := overlayURLOf (doc.find "style").text
  { username := username
    description := description
    statistics := { likeCount := likeCount, commentCount := commentCount,
                    shareCount := shareCount }
    downloads := { avatarUrl := avatarURL, overlayUrl := overlayURL, videoUrl := videoURL,
                   musicUrl := musicURL } }

/-- An HTTP request as the program builds it. -/
structure Request where
  method : String
  url : String
  headers : List (String × String)
  body : String
  deriving DecidableEq, Repr

/-- Outcome of `http.Get` followed by `io.ReadAll`. -/
inductive GetOutcome where
  | sendFailed : GetOutcome
  | readFailed : GetOutcome
  | body (b : String) : GetOutcome

/-- Outcome of `client.Do` followed by `goquery.NewDocumentFromReader`. -/
inductive PostOutcome where
  | sendFailed : PostOutcome
  | parseFailed : PostOutcome
  | parsed (doc : Document) : PostOutcome

/-- The network the program talks to: the outcome of each call, and the further requests
the Go HTTP client issues by itself while it follows the redirects of that call. -/
structure Network where
  get : String → GetOutcome
  getRedirects : String → List (String × List (String × String))
  post : Request → PostOutcome
  postRedirects : Request → List Request

/-- The request of `http.Get(baseURL)`. -/
def getRequest : Request := ⟨"GET", baseURL, [], ""⟩

/-- The requests issued by `http.Get(baseURL)`: the request itself, then one GET for each
redirect the client follows (address and headers given by the network). -/
def getRequests (net : Network) : List Request :=
  getRequest :: (net.getRedirects baseURL).map (fun hop => ⟨"GET", hop.1, hop.2, ""⟩)

/-- The request built by lines 85-93 of `scrapeSSSTik`. -/
def postRequest (url token : String) : Request :=
  { method := "POST"
    url := baseURL ++ "/abc?url=dl"
    headers :=
      [("Content-Type", "application/x-www-form-urlencoded"),
       ("Origin", baseURL),
       ("Referer", baseURL ++ "/en"),
       ("User-Agent", "Mozilla/5.0 (X11; Linux x86_64) AppleWebKit/537.36 (KHTML, like Gecko) Chrome/124.0.0.0 Safari/537.36")]
    body := formData url token }

/-- Go `extractToken`. -/
def extractToken (net : Network) : Except String String :=
  match net.get baseURL with
  | .sendFailed => .error "failed to fetch the SSSTik homepage"
  | .readFailed => .error "failed to read SSSTik homepage content"
  | .body b => extractTokenFrom b

/-- Go `scrapeSSSTik`.  `http.NewRequest` cannot fail on the constant method and
address used here. -/
def scrapeSSSTik (net : Network) (url token : String) : Except String Result :=
  match net.post (postRequest url token) with
  | .sendFailed => .error "failed to send POST request"
  | .parseFailed => .error "failed to parse response HTML"
  | .parsed doc => .ok (extractFields doc)

/-- Go `printFormattedResult`: the text written to standard output. -/
def printFormattedResult (data : Result) : String :=
  "Result:\n" ++
  "\tUsername:\t" ++ data.username ++ "\n" ++
  "\tDescription:\t" ++ data.description ++ "\n" ++
  "\tStatistics:\n" ++
  "\t\tLike Count:\t" ++ data.statistics.likeCount ++ "\n" ++
  "\t\tComment Count:\t" ++ data.statistics.commentCount ++ "\n" ++
  "\t\tShare Count:\t" ++ data.statistics.shareCount ++ "\n" ++
  "\tDownloads:\n" ++
  "\t\tAvatar URL:\t" ++ data.downloads.avatarUrl ++ "\n" ++
  "\t\tOverlay URL:\t" ++ data.downloads.overlayUrl ++ "\n" ++
  "\t\tVideo URL:\t" ++ data.downloads.videoUrl ++ "\n" ++
  "\t\tMusic URL:\t" ++ data.downloads.musicUrl ++ "\n"

/-- What a run of the program does: the requests that go out, in order (those of the
program and those of the client following redirects), and the text it writes to standard
output. -/
structure Trace where
  requests : List Request
  stdout : String
  deriving DecidableEq, Repr

/-- The requests issued by `client.Do(req)` in `scrapeSSSTik`: the POST, then the requests
of the redirects the client follows. -/
def postRequests (net : Network) (url token : String) : List Request :=
  postRequest url token :: net.postRedirects (postRequest url token)

/-- Go `main`, given `os.Args` and the network. -/
def main (args : List String) (net : Network) : Trace :=
  if args.length < 2 then
    ⟨[], "The arguments must contain a valid TikTok URL." ++ "\n"⟩
  else
    let url := " ".intercalate (args.drop 1)
    if !validateTikTokURL url then
      ⟨[], "Must be a valid TikTok URL." ++ "\n"⟩
    else
      match extractToken net with
      | .error err => ⟨getRequests net, err ++ "\n"⟩
      | .ok token =>
        match scrapeSSSTik net url token with
        | .error err => ⟨getRequests net ++ postRequests net url token, err ++ "\n"⟩
        | .ok data =>
          ⟨getRequests net ++ postRequests net url token, printFormattedResult data⟩

/-! ## Declarative descriptions used by the statements -/

/-- The token shape in words: `s_tt`, optional whitespace, `=`, optional whitespace, a
quote, the non-empty quote-free text `t`, a quote. -/
def TokenForm (w t : List Char) : Prop :=
  ∃ ws1 ws2, w = "s_tt".toList ++ (ws1 ++ ('=' :: (ws2 ++ (sq :: (t ++ [sq]))))) ∧
    (∀ c ∈ ws1, isSpaceC c = true) ∧ (∀ c ∈ ws2, isSpaceC c = true) ∧ t ≠ [] ∧ sq ∉ t

/-- The body contains a substring of the token shape. -/
def ContainsToken (body : String) : Prop :=
  ∃ pre w t post, body.toList = pre ++ (w ++ post) ∧ TokenForm w t

/-- Cut a text at every occurrence of the separator. -/
def splitOnChar (sep : Char) : List Char → List (List Char)
  | [] => [[]]
  | c :: cs =>
    if c == sep then [] :: splitOnChar sep cs
    else
      match splitOnChar sep cs with
      | [] => [[c]]
      | x :: xs => (c :: x) :: xs

/-- The `key=value` pairs of an `application/x-www-form-urlencoded` body, before
percent-decoding: the body is cut at every `&` and each piece at its first `=`. -/
def formPairs (body : String) : List (String × String) :=
  (splitOnChar '&' body.toList).map (fun kv =>
    (String.mk (kv.takeWhile (fun c => c != '=')),
     String.mk ((kv.dropWhile (fun c => c != '=')).drop 1)))

deriving instance DecidableEq for Except

/-- An optional quote character: the words matched by `["']?`. -/
def OptQuote (q : List Char) : Prop := q = [] ∨ ∃ c, q = [c] ∧ isQuote c = true

/-- The overlay rule shape in words: the selector, a brace, the `background-image`
declaration whose `url(...)` holds the optionally quoted, non-empty, quote-free text `x`,
and the closing brace, with optional whitespace where the pattern has `\s*`. -/
def OverlayForm (w x : List Char) : Prop :=
  ∃ ws1 ws2 ws3 q1 q2 ws4,
    w = "#mainpicture .result_overlay".toList ++ (ws1 ++ ("\x7b".toList ++ (ws2 ++
      ("background-image:".toList ++ (ws3 ++ ("url(".toList ++ (q1 ++ (x ++ (q2 ++
        (");".toList ++ (ws4 ++ "\x7d".toList))))))))))) ∧
    (∀ c ∈ ws1, isSpaceC c = true) ∧ (∀ c ∈ ws2, isSpaceC c = true) ∧
    (∀ c ∈ ws3, isSpaceC c = true) ∧ (∀ c ∈ ws4, isSpaceC c = true) ∧
    OptQuote q1 ∧ OptQuote q2 ∧ x ≠ [] ∧ (∀ c ∈ x, notQuote c = true)

/-- The text `m` is the text `s` without its leading and trailing white space. -/
def TrimOf (s m : String) : Prop :=
  ∃ a b, s.toList = a ++ (m.toList ++ b) ∧
    (∀ c ∈ a, goIsSpace c = true) ∧ (∀ c ∈ b, goIsSpace c = true) ∧
    (∀ c, m.toList.head? = some c → goIsSpace c = false) ∧
    (∀ c, m.toList.getLast? = some c → goIsSpace c = false)

/-- A response document with every element but the music link. -/
def sampleDocument : Document :=
  ⟨fun sel =>
    if sel = "h2" then [⟨" alice\n", []⟩]
    else if sel = ".maintext" then [⟨"hello", []⟩]
    else if sel = "div.trending-actions > div.justify-content-start" then
      [⟨" 10 ", []⟩, ⟨"other", []⟩]
    else if sel = "div.trending-actions > div.justify-content-center > div" then [⟨"2", []⟩]
    else if sel = "div.trending-actions > div.justify-content-end > div" then [⟨"1", []⟩]
    else if sel = "img.result_author" then [⟨"", [("class", "result_author"), ("src", "https://cdn.example/a.jpg")]⟩]
    else if sel = "a.without_watermark" then [⟨"Without watermark", [("href", "https://cdn.example/v.mp4")]⟩]
    else if sel = "style" then
      [⟨"#mainpicture .result_overlay \x7b background-image: url(https://cdn.example/o.jpg); \x7d", []⟩]
    else []⟩

/-- A network whose homepage redirects once and whose processing endpoint answers with
`sampleDocument`. -/
def sampleNetwork (homepage : String) : Network :=
  { get := fun _ => .body homepage
    getRedirects := fun _ => [("https://ssstik.io/en", [("Referer", "https://ssstik.io")])]
    post := fun _ => .parsed sampleDocument
    postRedirects := fun _ => [] }

/-! ## Basic facts -/

@[simp] theorem lastOr_nil (prev : Option Char) : lastOr prev [] = prev := rfl

@[simp] theorem lastOr_cons (prev : Option Char) (c : Char) (cs : List Char) :
    lastOr prev (c :: cs) = lastOr (some c) cs := rfl

theorem lastOr_append (prev : Option Char) (u v : List Char) :
    lastOr prev (u ++ v) = lastOr (lastOr prev u) v := by
  induction u generalizing prev with
  | nil => rfl
  | cons c cs ih => simp [ih]

theorem lastOr_of_ne_nil (p q : Option Char) {u : List Char} (h : u ≠ []) :
    lastOr p u = lastOr q u := by
  cases u with
  | nil => exact absurd rfl h
  | cons c cs => rfl

@[simp] theorem headOr_nil (nxt : Option Char) : headOr [] nxt = nxt := rfl

@[simp] theorem headOr_cons (c : Char) (cs : List Char) (nxt : Option Char) :
    headOr (c :: cs) nxt = some c := rfl

theorem headOr_append (u v : List Char) (nxt : Option Char) :
    headOr (u ++ v) nxt = headOr u (headOr v nxt) := by
  cases u <;> rfl

theorem head?_append_eq (v r : List Char) : (v ++ r).head? = headOr v r.head? := by
  cases v <;> rfl

theorem headOr_of_ne_nil (p q : Option Char) {u : List Char} (h : u ≠ []) :
    headOr u p = headOr u q := by
  cases u with
  | nil => exact absurd rfl h
  | cons c cs => rfl

/-! ### Unfolding the semantics, one constructor at a time -/
theorem Sem_seq (a b : Regex) (prev : Option Char) (w : List Char) (nxt : Option Char)
    (cs : List (Nat × List Char)) :
    Sem (.seq a b) prev w nxt cs ↔
      ∃ u v ca cb, w = u ++ v ∧ Sem a prev u (headOr v nxt) ca ∧
        Sem b (lastOr prev u) v nxt cb ∧ cs = cb ++ ca := Iff.rfl

theorem Sem_star (p : Char → Bool) (prev : Option Char) (w : List Char) (nxt : Option Char)
    (cs : List (Nat × List Char)) :
    Sem (.star p) prev w nxt cs ↔ (∀ c ∈ w, p c = true) ∧ cs = [] := Iff.rfl

theorem Sem_plus (p : Char → Bool) (prev : Option Char) (w : List Char) (nxt : Option Char)
    (cs : List (Nat × List Char)) :
    Sem (.plus p) prev w nxt cs ↔ w ≠ [] ∧ (∀ c ∈ w, p c = true) ∧ cs = [] := Iff.rfl

theorem Sem_group (n : Nat) (a : Regex) (prev : Option Char) (w : List Char)
    (nxt : Option Char) (cs : List (Nat × List Char)) :
    Sem (.group n a) prev w nxt cs ↔ ∃ ca, Sem a prev w nxt ca ∧ cs = (n, w) :: ca := Iff.rfl

theorem Sem_alt (a b : Regex) (prev : Option Char) (w : List Char) (nxt : Option Char)
    (cs : List (Nat × List Char)) :
    Sem (.alt a b) prev w nxt cs ↔ Sem a prev w nxt cs ∨ Sem b prev w nxt cs := Iff.rfl

theorem Sem_opt (a : Regex) (prev : Option Char) (w : List Char) (nxt : Option Char)
    (cs : List (Nat × List Char)) :
    Sem (.opt a) prev w nxt cs ↔ Sem a prev w nxt cs ∨ (w = [] ∧ cs = []) := Iff.rfl

/-! ## The matcher agrees with the declarative semantics -/

/-- Outcomes of a greedy class repetition: any split of the input after a run of class
characters. -/
theorem mem_starRun (p : Char → Bool) (prev : Option Char) (caps : List (Nat × List Char))
    (rest : List Char) (t : Cursor) :
    t ∈ starRun p prev caps rest ↔
      ∃ w rest', rest = w ++ rest' ∧ (∀ c ∈ w, p c = true) ∧ t = ⟨lastOr prev w, rest', caps⟩ := by
  induction rest generalizing prev with
  | nil =>
    simp only [starRun, List.mem_singleton]
    constructor
    · intro h
      exact ⟨[], [], rfl, by simp, by simpa using h⟩
    · rintro ⟨w, rest', h, -, ht⟩
      have hw : w = [] := by
        cases w with
        | nil => rfl
        | cons a l => simp at h
      subst hw
      simp at h
      subst h
      simpa using ht
  | cons c cs ih =>
    unfold starRun
    by_cases hp : p c = true
    · simp only [hp, if_true, List.mem_append, List.mem_singleton, ih]
      constructor
      · rintro (⟨w, rest', h, hw, ht⟩ | ht)
        · refine ⟨c :: w, rest', by simp [h], ?_, by simpa using ht⟩
          intro x hx
          rcases List.mem_cons.mp hx with rfl | hx
          · exact hp
          · exact hw x hx
        · exact ⟨[], c :: cs, rfl, by simp, by simpa using ht⟩
      · rintro ⟨w, rest', h, hw, ht⟩
        cases w with
        | nil =>
          right
          simp at h
          subst h
          simpa using ht
        | cons a l =>
          left
          simp at h
          obtain ⟨rfl, rfl⟩ := h
          exact ⟨l, rest', rfl, fun x hx => hw x (List.mem_cons_of_mem _ hx), by simpa using ht⟩
    · simp only [hp, List.mem_singleton]
      constructor
      · intro ht
        exact ⟨[], c :: cs, rfl, by simp, by simpa using ht⟩
      · rintro ⟨w, rest', h, hw, ht⟩
        cases w with
        | nil =>
          simp at h
          subst h
          simpa using ht
        | cons a l =>
          simp at h
          obtain ⟨rfl, rfl⟩ := h
          exact absurd (hw c (List.mem_cons_self _ _)) hp

/-- The matcher is sound and complete for the declarative semantics: the outcomes of `run`
are exactly the splits of the input whose first part is matched by `Sem`. -/
theorem mem_run (r : Regex) (prev : Option Char) (rest : List Char)
    (caps : List (Nat × List Char)) (t : Cursor) :
    t ∈ run r ⟨prev, rest, caps⟩ ↔
      ∃ w rest' cs, rest = w ++ rest' ∧ Sem r prev w rest'.head? cs ∧
        t = ⟨lastOr prev w, rest', cs ++ caps⟩ := by
  induction r generalizing prev rest caps t with
  | eps =>
    simp only [run, Sem, List.mem_singleton]
    constructor
    · rintro rfl
      exact ⟨[], rest, [], rfl, ⟨rfl, rfl⟩, rfl⟩
    · rintro ⟨w, rest', cs, h, ⟨rfl, rfl⟩, ht⟩
      simp at h
      subst h
      simpa using ht
  | cls p =>
    simp only [run, Sem]
    constructor
    · intro h
      cases rest with
      | nil => simp at h
      | cons c cs =>
        by_cases hp : p c = true
        · simp [hp] at h
          exact ⟨[c], cs, [], rfl, ⟨⟨c, rfl, hp⟩, rfl⟩, by simpa using h⟩
        · simp [hp] at h
    · rintro ⟨w, rest', cs, h, ⟨⟨c, rfl, hp⟩, rfl⟩, ht⟩
      subst h
      simp [hp, ht]
  | seq a b iha ihb =>
    simp only [run, Sem, List.mem_flatMap]
    constructor
    · rintro ⟨u, hu, ht⟩
      obtain ⟨w1, r1, ca, h1, hs1, rfl⟩ := (iha _ _ _ _).mp hu
      obtain ⟨w2, r2, cb, h2, hs2, rfl⟩ := (ihb _ _ _ _).mp ht
      refine ⟨w1 ++ w2, r2, cb ++ ca, by simp [h1, h2], ⟨w1, w2, ca, cb, rfl, ?_, hs2, rfl⟩, ?_⟩
      · rw [← head?_append_eq, ← h2]; exact hs1
      · simp [lastOr_append]
    · rintro ⟨w, rest', cs, h, ⟨w1, w2, ca, cb, rfl, hs1, hs2, rfl⟩, rfl⟩
      refine ⟨⟨lastOr prev w1, w2 ++ rest', ca ++ caps⟩, ?_, ?_⟩
      · refine (iha _ _ _ _).mpr ⟨w1, w2 ++ rest', ca, by simp [h], ?_, rfl⟩
        rw [head?_append_eq]; exact hs1
      · exact (ihb _ _ _ _).mpr ⟨w2, rest', cb, rfl, hs2, by simp [lastOr_append]⟩
  | alt a b iha ihb =>
    simp only [run, Sem, List.mem_append, iha, ihb]
    constructor
    · rintro (⟨w, rest', cs, h, hs, ht⟩ | ⟨w, rest', cs, h, hs, ht⟩)
      · exact ⟨w, rest', cs, h, Or.inl hs, ht⟩
      · exact ⟨w, rest', cs, h, Or.inr hs, ht⟩
    · rintro ⟨w, rest', cs, h, hs | hs, ht⟩
      · exact Or.inl ⟨w, rest', cs, h, hs, ht⟩
      · exact Or.inr ⟨w, rest', cs, h, hs, ht⟩
  | opt a iha =>
    simp only [run, Sem, List.mem_append, List.mem_singleton, iha]
    constructor
    · rintro (⟨w, rest', cs, h, hs, ht⟩ | rfl)
      · exact ⟨w, rest', cs, h, Or.inl hs, ht⟩
      · exact ⟨[], rest, [], rfl, Or.inr ⟨rfl, rfl⟩, rfl⟩
    · rintro ⟨w, rest', cs, h, hs | ⟨rfl, rfl⟩, ht⟩
      · exact Or.inl ⟨w, rest', cs, h, hs, ht⟩
      · right
        simp at h
        subst h
        simpa using ht
  | star p =>
    simp only [run, Sem, mem_starRun]
    constructor
    · rintro ⟨w, rest', h, hw, ht⟩
      exact ⟨w, rest', [], h, ⟨hw, rfl⟩, by simpa using ht⟩
    · rintro ⟨w, rest', cs, h, ⟨hw, rfl⟩, ht⟩
      exact ⟨w, rest', h, hw, by simpa using ht⟩
  | plus p =>
    simp only [run, Sem]
    constructor
    · intro h
      cases rest with
      | nil => simp at h
      | cons c cs =>
        by_cases hp : p c = true
        · simp only [hp, if_true, mem_starRun] at h
          obtain ⟨w, rest', h, hw, ht⟩ := h
          refine ⟨c :: w, rest', [], by simp [h], ⟨by simp, ?_, rfl⟩, by simpa using ht⟩
          intro x hx
          rcases List.mem_cons.mp hx with rfl | hx
          · exact hp
          · exact hw x hx
        · simp [hp] at h
    · rintro ⟨w, rest', cs, h, ⟨hne, hw, rfl⟩, ht⟩
      cases w with
      | nil => exact absurd rfl hne
      | cons c l =>
        subst h
        have hp : p c = true := hw c (List.mem_cons_self _ _)
        simp only [List.cons_append, hp, if_true, mem_starRun]
        exact ⟨l, rest', rfl, fun x hx => hw x (List.mem_cons_of_mem _ hx), by simpa using ht⟩
  | wordB =>
    simp only [run, Sem]
    constructor
    · intro h
      by_cases hb : (isWordAt prev != isWordAt rest.head?) = true
      · simp only [hb, if_true, List.mem_singleton] at h
        subst h
        exact ⟨[], rest, [], rfl, ⟨rfl, by simpa using hb, rfl⟩, rfl⟩
      · simp [hb] at h
    · rintro ⟨w, rest', cs, h, ⟨rfl, hb, rfl⟩, ht⟩
      simp at h
      subst h
      have hb' : (isWordAt prev != isWordAt rest.head?) = true := by simpa using hb
      simp [hb', ht]
  | group n a iha =>
    simp only [run, Sem, List.mem_map]
    constructor
    · rintro ⟨u, hu, rfl⟩
      obtain ⟨w, rest', ca, h, hs, rfl⟩ := (iha _ _ _ _).mp hu
      refine ⟨w, rest', (n, w) :: ca, h, ⟨ca, hs, rfl⟩, ?_⟩
      subst h
      simp
    · rintro ⟨w, rest', cs, h, ⟨ca, hs, rfl⟩, rfl⟩
      refine ⟨⟨lastOr prev w, rest', ca ++ caps⟩, (iha _ _ _ _).mpr ⟨w, rest', ca, h, hs, rfl⟩, ?_⟩
      subst h
      simp

/-- No match anywhere: every start position has no outcome. -/
theorem find_eq_none_iff (r : Regex) (prev : Option Char) (rest : List Char) :
    find r prev rest = none ↔
      ∀ a b, rest = a ++ b → run r ⟨lastOr prev a, b, []⟩ = [] := by
  induction rest generalizing prev with
  | nil =>
    simp only [find, Option.map_eq_none', List.head?_eq_none_iff]
    constructor
    · intro h a b hab
      have ha : a = [] := by
        cases a with
        | nil => rfl
        | cons x l => simp at hab
      subst ha
      simp at hab
      subst hab
      simpa using h
    · intro h
      simpa using h [] [] rfl
  | cons c cs ih =>
    unfold find
    cases hh : (run r ⟨prev, c :: cs, []⟩).head? with
    | some t =>
      simp only [reduceCtorEq, false_iff]
      intro h
      have := h [] (c :: cs) rfl
      simp only [lastOr_nil] at this
      rw [this] at hh
      simp at hh
    | none =>
      simp only [ih]
      rw [List.head?_eq_none_iff] at hh
      constructor
      · intro h a b hab
        cases a with
        | nil =>
          simp at hab
          subst hab
          simpa using hh
        | cons x l =>
          simp at hab
          obtain ⟨rfl, rfl⟩ := hab
          simpa using h l b rfl
      · intro h a b hab
        have := h (c :: a) b (by simp [hab])
        simpa using this

/-- The leftmost match: `find` returns the preferred outcome at the first start position
that has an outcome. -/
theorem find_eq_some (r : Regex) (prev : Option Char) (rest start : List Char) (t : Cursor)
    (h : find r prev rest = some (start, t)) :
    ∃ a, rest = a ++ start ∧ (run r ⟨lastOr prev a, start, []⟩).head? = some t ∧
      ∀ a' b', rest = a' ++ b' → a'.length < a.length →
        run r ⟨lastOr prev a', b', []⟩ = [] := by
  induction rest generalizing prev with
  | nil =>
    simp only [find, Option.map_eq_some'] at h
    obtain ⟨t', ht', heq⟩ := h
    simp only [Prod.mk.injEq] at heq
    obtain ⟨rfl, rfl⟩ := heq
    exact ⟨[], rfl, by simpa using ht', by intro a' b' _ hlt; simp at hlt⟩
  | cons c cs ih =>
    unfold find at h
    cases hh : (run r ⟨prev, c :: cs, []⟩).head? with
    | some t' =>
      rw [hh] at h
      simp only [Option.some.injEq, Prod.mk.injEq] at h
      obtain ⟨rfl, rfl⟩ := h
      exact ⟨[], rfl, by simpa using hh, by intro a' b' _ hlt; simp at hlt⟩
    | none =>
      rw [hh] at h
      simp only at h
      obtain ⟨a, ha, hhead, hmin⟩ := ih (some c) h
      refine ⟨c :: a, by simp [ha], by simpa using hhead, ?_⟩
      intro a' b' hab hlt
      cases a' with
      | nil =>
        simp at hab
        subst hab
        simpa [List.head?_eq_none_iff] using hh
      | cons x l =>
        simp at hab
        obtain ⟨rfl, hcs⟩ := hab
        have := hmin l b' hcs (by simpa using hlt)
        simpa using this

/-- `MatchString` holds exactly when some substring is matched by the declarative
semantics in its context. -/
theorem matchString_iff (r : Regex) (s : String) :
    matchString r s = true ↔
      ∃ a w b cs, s.toList = a ++ w ++ b ∧ Sem r (lastOr none a) w b.head? cs := by
  unfold matchString
  rw [← Option.ne_none_iff_isSome, Ne, find_eq_none_iff]
  push_neg
  constructor
  · rintro ⟨a, b, hab, hne⟩
    obtain ⟨t, ht⟩ := List.exists_mem_of_ne_nil _ hne
    obtain ⟨w, rest', cs, h, hs, -⟩ := (mem_run _ _ _ _ _).mp ht
    exact ⟨a, w, rest', cs, by rw [hab, h, List.append_assoc], hs⟩
  · rintro ⟨a, w, b, cs, h, hs⟩
    refine ⟨a, w ++ b, by rw [h, List.append_assoc], ?_⟩
    apply List.ne_nil_of_mem
    exact (mem_run _ _ _ _ _).mpr ⟨w, b, cs, rfl, hs, rfl⟩

/-! ## Independence from the surrounding text -/

/-- An expression that matches the empty word is nullable. -/
theorem nullable_of_Sem_nil (r : Regex) (prev nxt : Option Char) (cs : List (Nat × List Char))
    (h : Sem r prev [] nxt cs) : r.nullable = true := by
  induction r generalizing prev nxt cs with
  | eps => rfl
  | cls p =>
    obtain ⟨⟨c, hc, -⟩, -⟩ := h
    simp at hc
  | seq a b iha ihb =>
    obtain ⟨u, v, ca, cb, huv, ha, hb, -⟩ := h
    have hu : u = [] := by
      cases u with
      | nil => rfl
      | cons x l => simp at huv
    subst hu
    have hv : v = [] := by simpa using huv.symm
    subst hv
    simp [Regex.nullable, iha _ _ _ ha, ihb _ _ _ hb]
  | alt a b iha ihb =>
    rcases h with h | h
    · simp [Regex.nullable, iha _ _ _ h]
    · simp [Regex.nullable, ihb _ _ _ h]
  | opt a _ => rfl
  | star p => rfl
  | plus p => exact absurd rfl h.1
  | wordB => rfl
  | group n a iha =>
    obtain ⟨ca, ha, -⟩ := h
    simpa [Regex.nullable] using iha _ _ _ ha

/-- A left-safe expression does not depend on the character before the match. -/
theorem Sem_change_prev (r : Regex) (hr : r.leftSafe = true) (p p' : Option Char)
    (w : List Char) (nxt : Option Char) (cs : List (Nat × List Char))
    (h : Sem r p w nxt cs) : Sem r p' w nxt cs := by
  induction r generalizing p p' w nxt cs with
  | eps => exact h
  | cls q => exact h
  | seq a b iha ihb =>
    simp only [Regex.leftSafe, Bool.and_eq_true, Bool.or_eq_true, Bool.not_eq_true'] at hr
    obtain ⟨u, v, ca, cb, huv, ha, hb, hcs⟩ := h
    refine ⟨u, v, ca, cb, huv, iha hr.1 _ _ _ _ _ ha, ?_, hcs⟩
    rcases hr.2 with hbs | hn
    · exact ihb hbs _ _ _ _ _ hb
    · have hu : u ≠ [] := by
        rintro rfl
        have := nullable_of_Sem_nil a _ _ _ ha
        rw [hn] at this
        exact absurd this (by simp)
      rw [lastOr_of_ne_nil p' p hu]
      exact hb
  | alt a b iha ihb =>
    simp only [Regex.leftSafe, Bool.and_eq_true] at hr
    rcases h with h | h
    · exact Or.inl (iha hr.1 _ _ _ _ _ h)
    · exact Or.inr (ihb hr.2 _ _ _ _ _ h)
  | opt a iha =>
    simp only [Regex.leftSafe] at hr
    rcases h with h | h
    · exact Or.inl (iha hr _ _ _ _ _ h)
    · exact Or.inr h
  | star q => exact h
  | plus q => exact h
  | wordB => simp [Regex.leftSafe] at hr
  | group n a iha =>
    simp only [Regex.leftSafe] at hr
    obtain ⟨ca, ha, hcs⟩ := h
    exact ⟨ca, iha hr _ _ _ _ _ ha, hcs⟩

/-- A right-safe expression does not depend on the character after the match. -/
theorem Sem_change_next (r : Regex) (hr : r.rightSafe = true) (p : Option Char)
    (w : List Char) (n n' : Option Char) (cs : List (Nat × List Char))
    (h : Sem r p w n cs) : Sem r p w n' cs := by
  induction r generalizing p w n n' cs with
  | eps => exact h
  | cls q => exact h
  | seq a b iha ihb =>
    simp only [Regex.rightSafe, Bool.and_eq_true, Bool.or_eq_true, Bool.not_eq_true'] at hr
    obtain ⟨u, v, ca, cb, huv, ha, hb, hcs⟩ := h
    refine ⟨u, v, ca, cb, huv, ?_, ihb hr.1 _ _ _ _ _ hb, hcs⟩
    rcases hr.2 with has | hn
    · exact iha has _ _ _ _ _ ha
    · have hv : v ≠ [] := by
        rintro rfl
        have := nullable_of_Sem_nil b _ _ _ hb
        rw [hn] at this
        exact absurd this (by simp)
      rw [headOr_of_ne_nil n' n hv]
      exact ha
  | alt a b iha ihb =>
    simp only [Regex.rightSafe, Bool.and_eq_true] at hr
    rcases h with h | h
    · exact Or.inl (iha hr.1 _ _ _ _ _ h)
    · exact Or.inr (ihb hr.2 _ _ _ _ _ h)
  | opt a iha =>
    simp only [Regex.rightSafe] at hr
    rcases h with h | h
    · exact Or.inl (iha hr _ _ _ _ _ h)
    · exact Or.inr h
  | star q => exact h
  | plus q => exact h
  | wordB => simp [Regex.rightSafe] at hr
  | group n a iha =>
    simp only [Regex.rightSafe] at hr
    obtain ⟨ca, ha, hcs⟩ := h
    exact ⟨ca, iha hr _ _ _ _ _ ha, hcs⟩

theorem tiktokURLPattern_leftSafe : tiktokURLPattern.leftSafe = true := by decide

theorem tiktokURLPattern_rightSafe : tiktokURLPattern.rightSafe = true := by decide

/-- C9: `validateTikTokURL` is closed under adding surrounding text: if `s` is accepted
then so is `p ++ s ++ q`, for all strings `p`, `q`. -/
theorem validateTikTokURL_surround (p s q : String)
    (h : validateTikTokURL s = true) : validateTikTokURL (p ++ s ++ q) = true := by
  unfold validateTikTokURL at h ⊢
  rw [matchString_iff] at h ⊢
  obtain ⟨a, w, b, cs, hs, hsem⟩ := h
  refine ⟨p.toList ++ a, w, b ++ q.toList, cs, ?_, ?_⟩
  · simp only [String.toList, String.data_append] at hs ⊢
    rw [hs]
    simp
  · exact Sem_change_next _ tiktokURLPattern_rightSafe _ _ _ _ _
      (Sem_change_prev _ tiktokURLPattern_leftSafe _ _ _ _ _ hsem)

theorem validateTikTokURL_surround_witness :
    validateTikTokURL "https://vm.tiktok.com/ZM8abc" = true ∧
    validateTikTokURL ("see " ++ "https://vm.tiktok.com/ZM8abc" ++ " now") = true :=
  ⟨by decide, validateTikTokURL_surround "see " "https://vm.tiktok.com/ZM8abc" " now" (by decide)⟩

/-! ## The URL pattern -/

/-- A literal matches exactly its own text and records nothing. -/
theorem Sem_lit_iff (w : List Char) (prev : Option Char) (w' : List Char) (nxt : Option Char)
    (cs : List (Nat × List Char)) :
    Sem (lit w) prev w' nxt cs ↔ w' = w ∧ cs = [] := by
  induction w generalizing prev w' nxt cs with
  | nil => simp [lit, Sem]
  | cons c l ih =>
    cases l with
    | nil =>
      simp only [lit, Sem]
      constructor
      · rintro ⟨⟨x, rfl, hx⟩, rfl⟩
        simp at hx
        simp [hx]
      · rintro ⟨rfl, rfl⟩
        exact ⟨⟨c, rfl, by simp⟩, rfl⟩
    | cons d l =>
      simp only [lit, Sem]
      constructor
      · rintro ⟨u, v, ca, cb, rfl, ⟨⟨x, rfl, hx⟩, rfl⟩, hv, rfl⟩
        simp at hx
        subst hx
        obtain ⟨rfl, rfl⟩ := (ih _ _ _ _).mp hv
        simp
      · rintro ⟨rfl, rfl⟩
        exact ⟨[c], d :: l, [], [], rfl, ⟨⟨c, rfl, by simp⟩, rfl⟩, (ih _ _ _ _).mpr ⟨rfl, rfl⟩, rfl⟩

theorem Sem_lit (w : List Char) (prev nxt : Option Char) : Sem (lit w) prev w nxt [] :=
  (Sem_lit_iff w prev w nxt []).mpr ⟨rfl, rfl⟩

/-- Sequencing two matches that record nothing. -/
theorem Sem_seq_nil (a b : Regex) (prev nxt : Option Char) (u v : List Char)
    (ha : ∀ n, Sem a prev u n []) (hb : ∀ p, Sem b p v nxt []) :
    Sem (.seq a b) prev (u ++ v) nxt [] :=
  ⟨u, v, [], [], rfl, ha _, hb _, rfl⟩

/-- The host part accepts `https://`, an optional listed subdomain, an optional dot and
`tiktok.com/`. -/
theorem Sem_hostPattern (sub dot : List Char) (prev nxt : Option Char)
    (hsub : sub ∈ [[], "m".toList, "www".toList, "vm".toList, "vt".toList, "lite".toList])
    (hdot : dot = [] ∨ dot = ['.']) :
    Sem hostPattern prev ("https://".toList ++ (sub ++ (dot ++ "tiktok.com/".toList))) nxt [] := by
  unfold hostPattern
  refine Sem_seq_nil _ _ _ _ _ _ (fun n => Sem_lit _ _ _) (fun p => ?_)
  refine Sem_seq_nil _ _ _ _ _ _ (fun n => ?_) (fun p => ?_)
  · simp only [List.mem_cons, List.mem_singleton, List.not_mem_nil, or_false] at hsub
    rcases hsub with rfl | rfl | rfl | rfl | rfl | rfl
    · exact Or.inr ⟨rfl, rfl⟩
    · exact Or.inl (Or.inl (Sem_lit _ _ _))
    · exact Or.inl (Or.inr (Or.inl (Sem_lit _ _ _)))
    · exact Or.inl (Or.inr (Or.inr (Or.inl (Sem_lit _ _ _))))
    · exact Or.inl (Or.inr (Or.inr (Or.inr (Or.inl (Sem_lit _ _ _)))))
    · exact Or.inl (Or.inr (Or.inr (Or.inr (Or.inr (Sem_lit _ _ _)))))
  · refine Sem_seq_nil _ _ _ _ _ _ (fun n => ?_) (fun p => Sem_lit _ _ _)
    rcases hdot with rfl | rfl
    · exact Or.inr ⟨rfl, rfl⟩
    · exact Or.inl (Sem_lit _ _ _)

/-- The keyword part accepts a listed keyword followed by a slash. -/
theorem Sem_keyPattern_keyword (K : List Char) (prev nxt : Option Char)
    (hK : K ∈ ["usr".toList, "v".toList, "embed".toList, "user".toList, "video".toList,
      "photo".toList]) :
    Sem keyPattern prev (K ++ ['/']) nxt [] := by
  unfold keyPattern
  refine Or.inl (Sem_seq_nil _ _ _ _ _ _ (fun n => ?_) (fun p => Sem_lit _ _ _))
  simp only [List.mem_cons, List.mem_singleton, List.not_mem_nil, or_false] at hK
  rcases hK with rfl | rfl | rfl | rfl | rfl | rfl
  · exact Or.inl (Sem_lit _ _ _)
  · exact Or.inr (Or.inl (Sem_lit _ _ _))
  · exact Or.inr (Or.inr (Or.inl (Sem_lit _ _ _)))
  · exact Or.inr (Or.inr (Or.inr (Or.inl (Sem_lit _ _ _))))
  · exact Or.inr (Or.inr (Or.inr (Or.inr (Or.inl (Sem_lit _ _ _)))))
  · exact Or.inr (Or.inr (Or.inr (Or.inr (Or.inr (Sem_lit _ _ _)))))

/-- The keyword part accepts the share-link query parameter. -/
theorem Sem_keyPattern_shareId (prev nxt : Option Char) :
    Sem keyPattern prev "?shareId=".toList nxt [] :=
  Or.inr (Or.inl (Sem_lit _ _ _))

/-- The first path alternative accepts a newline-free text, a keyword part at a word
boundary and a non-empty run of digits. -/
theorem Sem_idPathPattern (prev nxt : Option Char) (P key D : List Char)
    (hP : ∀ c ∈ P, isDotC c = true)
    (hkey : ∀ p n, Sem keyPattern p key n [])
    (hb : isWordAt (lastOr prev P) ≠ isWordAt (headOr key none))
    (hkne : key ≠ [])
    (hD : D ≠ []) (hDd : ∀ c ∈ D, isDigitC c = true) :
    Sem idPathPattern prev (P ++ (key ++ D)) nxt [(2, D)] := by
  unfold idPathPattern
  refine ⟨P, key ++ D, [], [(2, D)], rfl, ⟨hP, rfl⟩, ?_, rfl⟩
  refine ⟨[], key ++ D, [], [(2, D)], rfl, ⟨rfl, ?_, rfl⟩, ?_, rfl⟩
  · rw [headOr_append, headOr_of_ne_nil _ none hkne]
    exact hb
  · exact ⟨key, D, [], [(2, D)], rfl, hkey _ _, ⟨[], ⟨hD, hDd, rfl⟩, rfl⟩, rfl⟩

theorem toList_append (a b : String) : (a ++ b).toList = a.toList ++ b.toList := by
  simp [String.toList, String.data_append]

theorem lastOr_of_getLast? (prev : Option Char) (w : List Char) (c : Char)
    (h : w.getLast? = some c) : lastOr prev w = some c := by
  induction w generalizing prev with
  | nil => simp at h
  | cons x l ih =>
    cases l with
    | nil => simpa using h
    | cons y l =>
      rw [List.getLast?_cons_cons] at h
      simpa using ih (some x) h

theorem Sem_host_allowed (H : String) (hH : H ∈ allowedHosts) (prev nxt : Option Char) :
    Sem hostPattern prev ("https://".toList ++ (H.toList ++ ['/'])) nxt [] := by
  simp only [allowedHosts, List.mem_cons, List.mem_singleton, List.not_mem_nil, or_false] at hH
  rcases hH with rfl | rfl | rfl | rfl | rfl | rfl
  · exact Sem_hostPattern [] [] _ _ (by simp) (Or.inl rfl)
  · exact Sem_hostPattern "m".toList ['.'] _ _ (by simp) (Or.inr rfl)
  · exact Sem_hostPattern "www".toList ['.'] _ _ (by simp) (Or.inr rfl)
  · exact Sem_hostPattern "vm".toList ['.'] _ _ (by simp) (Or.inr rfl)
  · exact Sem_hostPattern "vt".toList ['.'] _ _ (by simp) (Or.inr rfl)
  · exact Sem_hostPattern "lite".toList ['.'] _ _ (by simp) (Or.inr rfl)

theorem Sem_key_allowed (K : String) (hK : K ∈ pathKeywords) :
    (∀ p n, Sem keyPattern p (K.toList ++ ['/']) n []) ∧
      isWordAt (headOr (K.toList ++ ['/']) none) = true := by
  simp only [pathKeywords, List.mem_cons, List.mem_singleton, List.not_mem_nil, or_false] at hK
  rcases hK with rfl | rfl | rfl | rfl | rfl | rfl
  · exact ⟨fun _ _ => Sem_keyPattern_keyword "usr".toList _ _ (by simp), by decide⟩
  · exact ⟨fun _ _ => Sem_keyPattern_keyword "v".toList _ _ (by simp), by decide⟩
  · exact ⟨fun _ _ => Sem_keyPattern_keyword "embed".toList _ _ (by simp), by decide⟩
  · exact ⟨fun _ _ => Sem_keyPattern_keyword "user".toList _ _ (by simp), by decide⟩
  · exact ⟨fun _ _ => Sem_keyPattern_keyword "video".toList _ _ (by simp), by decide⟩
  · exact ⟨fun _ _ => Sem_keyPattern_keyword "photo".toList _ _ (by simp), by decide⟩

theorem toList_ne_nil (D : String) (h : D ≠ "") : D.toList ≠ [] := by
  intro hD
  apply h
  apply String.ext
  simpa [String.toList] using hD

/-- C1: every keyword-path URL is accepted: for a host `H` of the allow-list, a path
text `P` without newline that is empty or ends in a slash, a keyword `K`, a non-empty
decimal digit string `D` and any suffix `S`, the validator returns true on
`https://H/PK/DS`. -/
theorem validateTikTokURL_keyword_path (H P K D S : String)
    (hH : H ∈ allowedHosts) (hK : K ∈ pathKeywords)
    (hP1 : '\n' ∉ P.toList) (hP2 : P = "" ∨ P.toList.getLast? = some '/')
    (hD1 : D ≠ "") (hD2 : ∀ c ∈ D.toList, c.isDigit = true) :
    validateTikTokURL ("https://" ++ H ++ "/" ++ P ++ K ++ "/" ++ D ++ S) = true := by
  unfold validateTikTokURL
  rw [matchString_iff]
  obtain ⟨hkey, hkw⟩ := Sem_key_allowed K hK
  refine ⟨[], ("https://".toList ++ (H.toList ++ ['/'])) ++
    (P.toList ++ ((K.toList ++ ['/']) ++ D.toList)), S.toList,
    [(1, P.toList ++ ((K.toList ++ ['/']) ++ D.toList)), (2, D.toList)], ?_, ?_⟩
  · simp only [toList_append]
    have : "/".toList = ['/'] := rfl
    simp [this]
  · refine ⟨_, _, [], _, rfl, Sem_host_allowed H hH _ _, ⟨[(2, D.toList)], Or.inl ?_, rfl⟩, rfl⟩
    refine Sem_idPathPattern _ _ _ _ _ ?_ hkey ?_ (by simp) (toList_ne_nil D hD1) hD2
    · intro c hc
      simp only [isDotC, bne_iff_ne, ne_eq]
      rintro rfl
      exact hP1 hc
    · have hprev : lastOr (lastOr (lastOr none []) ("https://".toList ++ (H.toList ++ ['/'])))
          P.toList = some '/' := by
        rcases hP2 with rfl | hP2
        · have : "".toList = [] := rfl
          rw [this, ← List.append_assoc, lastOr_append]
          rfl
        · exact lastOr_of_getLast? _ _ _ hP2
      rw [hprev, hkw]
      decide

theorem validateTikTokURL_keyword_path_witness :
    validateTikTokURL "https://www.tiktok.com/@user/video/1234567890123456789" = true :=
  validateTikTokURL_keyword_path "www.tiktok.com" "@user/" "video" "1234567890123456789" ""
    (by decide) (by decide) (by decide) (Or.inr (by decide)) (by decide) (by decide)

/-- C2 (as stated) fails: with host `tiktok.com`, an empty path text and digits `1`, the
share-link URL `https://tiktok.com/?shareId=1` is rejected, because the `\b` in front of
`\?shareId=` needs a word character before the question mark. -/
theorem validateTikTokURL_shareId_counterexample :
    "tiktok.com" ∈ allowedHosts ∧ '\n' ∉ "".toList ∧ "1" ≠ "" ∧
      (∀ c ∈ "1".toList, c.isDigit = true) ∧
      validateTikTokURL ("https://" ++ "tiktok.com" ++ "/" ++ "" ++ "?shareId=" ++ "1") = false := by
  decide

/-- C2 (amended): a share-link query URL `https://H/P?shareId=D` is accepted for every
host `H` of the allow-list and non-empty digit string `D` when the path text `P` contains
no newline and ends in a word character, or when `P` begins with a word character. -/
theorem validateTikTokURL_shareId (H P D : String) (hH : H ∈ allowedHosts)
    (hP : ('\n' ∉ P.toList ∧ ∃ c, P.toList.getLast? = some c ∧ isWordC c = true) ∨
      (∃ c, P.toList.head? = some c ∧ isWordC c = true))
    (hD1 : D ≠ "") (hD2 : ∀ c ∈ D.toList, c.isDigit = true) :
    validateTikTokURL ("https://" ++ H ++ "/" ++ P ++ "?shareId=" ++ D) = true := by
  unfold validateTikTokURL
  rw [matchString_iff]
  have hslash : "/".toList = ['/'] := rfl
  rcases hP with ⟨hP1, c, hlast, hc⟩ | ⟨c, hhead, hc⟩
  · refine ⟨[], ("https://".toList ++ (H.toList ++ ['/'])) ++
      (P.toList ++ ("?shareId=".toList ++ D.toList)), [],
      [(1, P.toList ++ ("?shareId=".toList ++ D.toList)), (2, D.toList)], ?_, ?_⟩
    · simp [toList_append, hslash]
    · refine ⟨_, _, [], _, rfl, Sem_host_allowed H hH _ _, ⟨[(2, D.toList)], Or.inl ?_, rfl⟩, rfl⟩
      refine Sem_idPathPattern _ _ _ _ _ ?_ (fun p n => Sem_keyPattern_shareId p n) ?_
        (by decide) (toList_ne_nil D hD1) hD2
      · intro x hx
        simp only [isDotC, bne_iff_ne, ne_eq]
        rintro rfl
        exact hP1 hx
      · rw [lastOr_of_getLast? _ _ _ hlast]
        simp only [isWordAt, hc]
        decide
  · obtain ⟨l, hl⟩ : ∃ l, P.toList = c :: l := by
      generalize P.toList = pl at hhead
      cases pl with
      | nil => simp at hhead
      | cons x l =>
        simp only [List.head?_cons, Option.some.injEq] at hhead
        exact ⟨l, by rw [hhead]⟩
    refine ⟨[], ("https://".toList ++ (H.toList ++ ['/'])) ++ [c],
      l ++ ("?shareId=".toList ++ D.toList), [(1, [c])], ?_, ?_⟩
    · simp only [toList_append, hslash, hl]
      simp
    · refine ⟨_, _, [], _, rfl, Sem_host_allowed H hH _ _, ⟨[], Or.inr ?_, rfl⟩, rfl⟩
      exact ⟨by simp, by simpa using hc, rfl⟩

theorem validateTikTokURL_shareId_witness :
    validateTikTokURL "https://m.tiktok.com/v/123.html?shareId=456" = true :=
  validateTikTokURL_shareId "m.tiktok.com" "v/123.html" "456" (by decide)
    (Or.inl ⟨by decide, 'l', by decide, by decide⟩) (by decide) (by decide)

/-- What the host part accepts, exactly: `https://`, nothing or one of the five listed
subdomains, nothing or a dot, and `tiktok.com/`. -/
theorem Sem_hostPattern_inv (prev : Option Char) (w : List Char) (nxt : Option Char)
    (cs : List (Nat × List Char)) (h : Sem hostPattern prev w nxt cs) :
    ∃ sub dot,
      sub ∈ [[], "m".toList, "www".toList, "vm".toList, "vt".toList, "lite".toList] ∧
      (dot = [] ∨ dot = ['.']) ∧
      w = "https://".toList ++ (sub ++ (dot ++ "tiktok.com/".toList)) := by
  simp only [hostPattern, Sem_seq, Sem_opt, Sem_alt, Sem_lit_iff] at h
  obtain ⟨u1, v1, ca1, cb1, rfl, ⟨rfl, rfl⟩, ⟨u2, v2, ca2, cb2, rfl, hsub,
    ⟨u3, v3, ca3, cb3, rfl, hdot, ⟨rfl, rfl⟩, rfl⟩, rfl⟩, rfl⟩ := h
  refine ⟨u2, u3, ?_, ?_, rfl⟩
  · rcases hsub with (⟨rfl, -⟩ | ⟨rfl, -⟩ | ⟨rfl, -⟩ | ⟨rfl, -⟩ | ⟨rfl, -⟩) | ⟨rfl, -⟩ <;> simp
  · rcases hdot with ⟨rfl, -⟩ | ⟨rfl, -⟩
    · exact Or.inr rfl
    · exact Or.inl rfl

/-- What the validator does guarantee about the host: every accepted string contains
`https://`, an optional listed subdomain, an optional dot and `tiktok.com/`. -/
theorem validateTikTokURL_host_shape (s : String) (h : validateTikTokURL s = true) :
    ∃ sub dot,
      sub ∈ [[], "m".toList, "www".toList, "vm".toList, "vt".toList, "lite".toList] ∧
      (dot = [] ∨ dot = ['.']) ∧
      ("https://".toList ++ (sub ++ (dot ++ "tiktok.com/".toList))) <:+: s.toList := by
  unfold validateTikTokURL at h
  rw [matchString_iff] at h
  obtain ⟨a, w, b, cs, hs, hsem⟩ := h
  obtain ⟨u, v, ca, cb, rfl, hhost, -, -⟩ := hsem
  obtain ⟨sub, dot, hsub, hdot, rfl⟩ := Sem_hostPattern_inv _ _ _ _ hhost
  exact ⟨sub, dot, hsub, hdot, a, v ++ b, by rw [hs]; simp only [List.append_assoc]⟩

/-- C3 at the failing input: `https://mtiktok.com/a` is accepted although it contains no
`https://H/` with `H` in the allow-list: the dot after the optional subdomain is optional
on its own. -/
theorem validateTikTokURL_foreign_host :
    validateTikTokURL "https://mtiktok.com/a" = true ∧
      ∀ H ∈ allowedHosts,
        ¬ (("https://" ++ H ++ "/").toList <:+: "https://mtiktok.com/a".toList) := by
  decide

/-! ## The token pattern -/

/-- The token pattern matches exactly the words of the token shape, capturing the text
between the quotes as group 1. -/
theorem Sem_token_iff (prev : Option Char) (w : List Char) (nxt : Option Char)
    (cs : List (Nat × List Char)) :
    Sem ssstikTokenPattern prev w nxt cs ↔ ∃ t, TokenForm w t ∧ cs = [(1, t)] := by
  have heq : "=".toList = ['='] := rfl
  simp only [ssstikTokenPattern, Sem_seq, Sem_star, Sem_plus, Sem_group, Sem_lit_iff, TokenForm,
    heq]
  constructor
  · rintro ⟨u1, v1, ca1, cb1, rfl, ⟨rfl, rfl⟩, ⟨u2, v2, ca2, cb2, rfl, ⟨h1, rfl⟩,
      ⟨u3, v3, ca3, cb3, rfl, ⟨rfl, rfl⟩, ⟨u4, v4, ca4, cb4, rfl, ⟨h2, rfl⟩,
      ⟨u5, v5, ca5, cb5, rfl, ⟨rfl, rfl⟩, ⟨u6, v6, ca6, cb6, rfl,
      ⟨ca, ⟨hne, hall, rfl⟩, rfl⟩, ⟨rfl, rfl⟩, rfl⟩, rfl⟩, rfl⟩, rfl⟩, rfl⟩, rfl⟩
    refine ⟨u6, ⟨u2, u4, by simp, h1, h2, hne, ?_⟩, by simp⟩
    intro hmem
    have := hall _ hmem
    simp [notSq] at this
  · rintro ⟨t, ⟨ws1, ws2, rfl, h1, h2, hne, hsq⟩, rfl⟩
    refine ⟨_, _, [], [(1, t)], rfl, ⟨rfl, rfl⟩,
      ⟨ws1, _, [], [(1, t)], rfl, ⟨h1, rfl⟩,
      ⟨['='], _, [], [(1, t)], rfl, ⟨rfl, rfl⟩,
      ⟨ws2, _, [], [(1, t)], rfl, ⟨h2, rfl⟩,
      ⟨[sq], _, [], [(1, t)], rfl, ⟨rfl, rfl⟩,
      ⟨t, [sq], [(1, t)], [], rfl, ⟨[], ⟨hne, ?_, rfl⟩, rfl⟩, ⟨rfl, rfl⟩, rfl⟩,
      rfl⟩, rfl⟩, rfl⟩, rfl⟩, rfl⟩
    intro c hc
    simp only [notSq, bne_iff_ne, ne_eq]
    rintro rfl
    exact hsq hc

/-- A run of class characters followed by a character outside the class splits in one
way only. -/
theorem class_run_unique (p : Char → Bool) (u u' : List Char) (x x' : Char)
    (r r' : List Char) (hu : ∀ c ∈ u, p c = true) (hu' : ∀ c ∈ u', p c = true)
    (hx : p x = false) (hx' : p x' = false) (h : u ++ x :: r = u' ++ x' :: r') :
    u = u' ∧ x = x' ∧ r = r' := by
  induction u generalizing u' with
  | nil =>
    cases u' with
    | nil => simpa using h
    | cons c l =>
      simp only [List.nil_append, List.cons_append, List.cons.injEq] at h
      have := hu' c (List.mem_cons_self _ _)
      rw [← h.1, hx] at this
      exact absurd this (by simp)
  | cons c l ih =>
    cases u' with
    | nil =>
      simp only [List.nil_append, List.cons_append, List.cons.injEq] at h
      have := hu c (List.mem_cons_self _ _)
      rw [h.1, hx'] at this
      exact absurd this (by simp)
    | cons c' l' =>
      simp only [List.cons_append, List.cons.injEq] at h
      obtain ⟨rfl, h⟩ := h
      obtain ⟨rfl, rfl, rfl⟩ := ih l' (fun y hy => hu y (List.mem_cons_of_mem _ hy))
        (fun y hy => hu' y (List.mem_cons_of_mem _ hy)) h
      exact ⟨rfl, rfl, rfl⟩

/-- At one start position the token shape is matched in at most one way. -/
theorem TokenForm_unique (w t w' t' post post' : List Char) (h : TokenForm w t)
    (h' : TokenForm w' t') (heq : w ++ post = w' ++ post') : t = t' := by
  obtain ⟨a, b, rfl, ha, hb, -, ht⟩ := h
  obtain ⟨a', b', rfl, ha', hb', -, ht'⟩ := h'
  simp only [List.append_assoc, List.cons_append, List.append_cancel_left_eq] at heq
  obtain ⟨rfl, -, heq⟩ := class_run_unique isSpaceC a a' '=' '=' _ _ ha ha' (by decide)
    (by decide) heq
  obtain ⟨rfl, -, heq⟩ := class_run_unique isSpaceC b b' sq sq _ _ hb hb' (by decide)
    (by decide) heq
  have hn : ∀ (l : List Char), sq ∉ l → ∀ c ∈ l, notSq c = true := by
    intro l hl c hc
    simp only [notSq, bne_iff_ne, ne_eq]
    rintro rfl
    exact hl hc
  exact (class_run_unique notSq t t' sq sq _ _ (hn t ht) (hn t' ht') (by decide) (by decide)
    heq).1

theorem extractTokenFrom_of_find_none (body : String)
    (h : find ssstikTokenPattern none body.toList = none) :
    extractTokenFrom body = .error "unable to extract SSSTik token" := by
  simp only [extractTokenFrom, findStringSubmatch, h]
  rfl

theorem extractTokenFrom_of_find_some (body : String) (start : List Char) (m : Cursor)
    (h : find ssstikTokenPattern none body.toList = some (start, m)) :
    extractTokenFrom body = .ok (String.mk ((m.caps.lookup 1).getD [])) := by
  have hn : ssstikTokenPattern.numGroups = 1 := by decide
  simp only [extractTokenFrom, findStringSubmatch, h, hn]
  rfl

/-- The token pattern finds nothing exactly when the body contains no substring of the
token shape. -/
theorem find_token_none_iff (body : String) :
    find ssstikTokenPattern none body.toList = none ↔ ¬ ContainsToken body := by
  rw [find_eq_none_iff]
  constructor
  · rintro h ⟨pre, w, t, post, hb, hf⟩
    have hmem : (⟨lastOr (lastOr none pre) w, post, [(1, t)] ++ []⟩ : Cursor) ∈
        run ssstikTokenPattern ⟨lastOr none pre, w ++ post, []⟩ :=
      (mem_run _ _ _ _ _).mpr ⟨w, post, [(1, t)], rfl,
        (Sem_token_iff _ _ _ _).mpr ⟨t, hf, rfl⟩, rfl⟩
    rw [h pre (w ++ post) hb] at hmem
    simp at hmem
  · intro h a b hab
    by_contra hne
    obtain ⟨m, hm⟩ := List.exists_mem_of_ne_nil _ hne
    obtain ⟨w, rest', cs, hw, hs, -⟩ := (mem_run _ _ _ _ _).mp hm
    obtain ⟨t, hf, -⟩ := (Sem_token_iff _ _ _ _).mp hs
    exact h ⟨a, w, t, rest', by rw [hab, hw], hf⟩

/-- When the token pattern finds a match, it is the leftmost substring of the token shape
and group 1 is the text between its quotes. -/
theorem find_token_some (body : String) (start : List Char) (m : Cursor)
    (h : find ssstikTokenPattern none body.toList = some (start, m)) :
    ∃ pre w t post, body.toList = pre ++ (w ++ post) ∧ TokenForm w t ∧ m.caps = [(1, t)] ∧
      ∀ pre' w' t' post', body.toList = pre' ++ (w' ++ post') → TokenForm w' t' →
        pre.length ≤ pre'.length ∧ (pre'.length = pre.length → t' = t) := by
  obtain ⟨a, ha, hhead, hmin⟩ := find_eq_some _ _ _ _ _ h
  have hm := List.mem_of_mem_head? hhead
  obtain ⟨w, rest', cs, hw, hs, rfl⟩ := (mem_run _ _ _ _ _).mp hm
  obtain ⟨t, hf, rfl⟩ := (Sem_token_iff _ _ _ _).mp hs
  refine ⟨a, w, t, rest', by rw [ha, hw], hf, by simp, ?_⟩
  intro pre' w' t' post' hb' hf'
  have hmem' : (⟨lastOr (lastOr none pre') w', post', [(1, t')] ++ []⟩ : Cursor) ∈
      run ssstikTokenPattern ⟨lastOr none pre', w' ++ post', []⟩ :=
    (mem_run _ _ _ _ _).mpr ⟨w', post', [(1, t')], rfl,
      (Sem_token_iff _ _ _ _).mpr ⟨t', hf', rfl⟩, rfl⟩
  constructor
  · by_contra hlt
    push_neg at hlt
    rw [hmin pre' (w' ++ post') hb' hlt] at hmem'
    simp at hmem'
  · intro hlen
    have hboth : pre' ++ (w' ++ post') = a ++ (w ++ rest') := by rw [← hb', ha, hw]
    have := (List.append_inj hboth hlen).2
    exact TokenForm_unique w' t' w t post' rest' hf' hf this

/-- An occurrence of `s_tt` cannot start inside `pre` and run over into a following
`s_tt`, unless `pre` itself contains `s_tt`. -/
theorem s_tt_no_straddle (pre0 pre x y : List Char)
    (h : pre0 ++ ("s_tt".toList ++ x) = pre ++ ("s_tt".toList ++ y))
    (hlt : pre0.length < pre.length) : "s_tt".toList <:+: pre := by
  have hs : "s_tt".toList = ['s', '_', 't', 't'] := rfl
  rw [hs] at h ⊢
  rcases List.append_eq_append_iff.mp h with ⟨d, hd, hx⟩ | ⟨d, hd, -⟩
  · rcases d with _ | ⟨d0, _ | ⟨d1, _ | ⟨d2, _ | ⟨d3, d⟩⟩⟩⟩
    · simp [hd] at hlt
    · simp at hx
    · simp at hx
    · simp at hx
    · simp only [List.cons_append, List.cons.injEq] at hx
      obtain ⟨rfl, rfl, rfl, rfl, -⟩ := hx
      exact ⟨pre0, d, by rw [hd]; simp⟩
  · rw [hd] at hlt
    simp at hlt

/-- C4: token parsing fails with "unable to extract SSSTik token" exactly when the body
contains no substring of the token shape; otherwise it returns, unchanged, the text between
the quotes of the leftmost such substring (which is determined by its start); in particular
for a body `pre ++ "s_tt = '" ++ t ++ "'" ++ post` with `t` non-empty and quote-free and
`pre` free of `s_tt` the result is `t`. -/
theorem extractTokenFrom_spec (body : String) :
    (extractTokenFrom body = .error "unable to extract SSSTik token" ↔ ¬ ContainsToken body) ∧
    (ContainsToken body →
      ∃ pre w t post, body.toList = pre ++ (w ++ post) ∧ TokenForm w t ∧
        (∀ pre' w' t' post', body.toList = pre' ++ (w' ++ post') → TokenForm w' t' →
          pre.length ≤ pre'.length ∧ (pre'.length = pre.length → t' = t)) ∧
        extractTokenFrom body = .ok (String.mk t)) ∧
    (∀ pre t post : String, body = pre ++ "s_tt = '" ++ t ++ "'" ++ post → t ≠ "" →
      sq ∉ t.toList → ¬ ("s_tt".toList <:+: pre.toList) → extractTokenFrom body = .ok t) := by
  have key : ContainsToken body →
      ∃ pre w t post, body.toList = pre ++ (w ++ post) ∧ TokenForm w t ∧
        (∀ pre' w' t' post', body.toList = pre' ++ (w' ++ post') → TokenForm w' t' →
          pre.length ≤ pre'.length ∧ (pre'.length = pre.length → t' = t)) ∧
        extractTokenFrom body = .ok (String.mk t) := by
    intro hc
    cases hfind : find ssstikTokenPattern none body.toList with
    | none => exact absurd hc ((find_token_none_iff body).mp hfind)
    | some sm =>
      obtain ⟨start, m⟩ := sm
      obtain ⟨pre, w, t, post, hb, hf, hcaps, hleft⟩ := find_token_some body start m hfind
      refine ⟨pre, w, t, post, hb, hf, hleft, ?_⟩
      rw [extractTokenFrom_of_find_some body start m hfind, hcaps]
      simp
  refine ⟨?_, key, ?_⟩
  · constructor
    · intro herr hc
      obtain ⟨pre, w, t, post, -, -, -, hok⟩ := key hc
      rw [hok] at herr
      simp at herr
    · intro hc
      exact extractTokenFrom_of_find_none body ((find_token_none_iff body).mpr hc)
  · intro pre t post hbody hne hsq hpre
    have hlit : "s_tt = '".toList = "s_tt".toList ++ ([' '] ++ ('=' :: ([' '] ++ [sq]))) := by
      decide
    have hq : "'".toList = [sq] := by decide
    have hform : TokenForm ("s_tt".toList ++ ([' '] ++ ('=' :: ([' '] ++ (sq :: (t.toList ++ [sq]))))))
        t.toList :=
      ⟨[' '], [' '], rfl, by decide, by decide, toList_ne_nil t hne, hsq⟩
    have hb : body.toList = pre.toList ++
        (("s_tt".toList ++ ([' '] ++ ('=' :: ([' '] ++ (sq :: (t.toList ++ [sq])))))) ++
          post.toList) := by
      rw [hbody]
      simp only [toList_append, hlit, hq]
      simp
    obtain ⟨pre0, w0, t0, post0, hb0, hf0, hleft, hok⟩ := key ⟨_, _, _, _, hb, hform⟩
    obtain ⟨hle, huniq⟩ := hleft _ _ _ _ hb hform
    have hlen : pre.toList.length = pre0.length := by
      rcases Nat.lt_or_ge pre0.length pre.toList.length with hlt | hge
      · exfalso
        apply hpre
        obtain ⟨a, b, rfl, -⟩ := hf0
        rw [hb0] at hb
        simp only [List.append_assoc] at hb
        exact s_tt_no_straddle pre0 pre.toList _ _ hb hlt
      · omega
    rw [hok, ← huniq hlen]
    rfl

theorem extractTokenFrom_spec_witness :
    extractTokenFrom "<script>s_tt = 'Xk9w';</script>" = .ok "Xk9w" :=
  (extractTokenFrom_spec "<script>s_tt = 'Xk9w';</script>").2.2 "<script>" "Xk9w" ";</script>"
    (by decide) (by decide) (by decide) (by decide)

/-! ## The overlay pattern -/

theorem Sem_optQuote (prev : Option Char) (w : List Char) (nxt : Option Char)
    (cs : List (Nat × List Char)) :
    Sem (.opt (.cls isQuote)) prev w nxt cs ↔ OptQuote w ∧ cs = [] := by
  simp only [Sem, OptQuote]
  constructor
  · rintro (⟨h, rfl⟩ | ⟨rfl, rfl⟩)
    · exact ⟨Or.inr h, rfl⟩
    · exact ⟨Or.inl rfl, rfl⟩
  · rintro ⟨rfl | h, rfl⟩
    · exact Or.inr ⟨rfl, rfl⟩
    · exact Or.inl ⟨h, rfl⟩

/-- The overlay pattern matches exactly the words of the overlay rule shape, capturing the
text inside `url(...)` as group 1. -/
theorem Sem_overlay_iff (prev : Option Char) (w : List Char) (nxt : Option Char)
    (cs : List (Nat × List Char)) :
    Sem overlayURLPattern prev w nxt cs ↔ ∃ x, OverlayForm w x ∧ cs = [(1, x)] := by
  simp only [overlayURLPattern, Sem_seq, Sem_star, Sem_plus, Sem_group, Sem_lit_iff,
    Sem_optQuote, OverlayForm]
  constructor
  · rintro ⟨u1, v1, ca1, cb1, rfl, ⟨rfl, rfl⟩, ⟨u2, v2, ca2, cb2, rfl, ⟨h1, rfl⟩,
      ⟨u3, v3, ca3, cb3, rfl, ⟨rfl, rfl⟩, ⟨u4, v4, ca4, cb4, rfl, ⟨h2, rfl⟩,
      ⟨u5, v5, ca5, cb5, rfl, ⟨rfl, rfl⟩, ⟨u6, v6, ca6, cb6, rfl, ⟨h3, rfl⟩,
      ⟨u7, v7, ca7, cb7, rfl, ⟨rfl, rfl⟩, ⟨u8, v8, ca8, cb8, rfl, ⟨hq1, rfl⟩,
      ⟨u9, v9, ca9, cb9, rfl, ⟨ca, ⟨hne, hall, rfl⟩, rfl⟩,
      ⟨u10, v10, ca10, cb10, rfl, ⟨hq2, rfl⟩, ⟨u11, v11, ca11, cb11, rfl, ⟨rfl, rfl⟩,
      ⟨u12, v12, ca12, cb12, rfl, ⟨h4, rfl⟩, ⟨rfl, rfl⟩, rfl⟩, rfl⟩, rfl⟩, rfl⟩, rfl⟩,
      rfl⟩, rfl⟩, rfl⟩, rfl⟩, rfl⟩, rfl⟩, rfl⟩
    exact ⟨u9, ⟨u2, u4, u6, u8, u10, u12, rfl, h1, h2, h3, h4, hq1, hq2, hne, hall⟩, by simp⟩
  · rintro ⟨x, ⟨ws1, ws2, ws3, q1, q2, ws4, rfl, h1, h2, h3, h4, hq1, hq2, hne, hall⟩, rfl⟩
    exact ⟨_, _, [], [(1, x)], rfl, ⟨rfl, rfl⟩,
      ⟨ws1, _, [], [(1, x)], rfl, ⟨h1, rfl⟩,
      ⟨_, _, [], [(1, x)], rfl, ⟨rfl, rfl⟩,
      ⟨ws2, _, [], [(1, x)], rfl, ⟨h2, rfl⟩,
      ⟨_, _, [], [(1, x)], rfl, ⟨rfl, rfl⟩,
      ⟨ws3, _, [], [(1, x)], rfl, ⟨h3, rfl⟩,
      ⟨_, _, [], [(1, x)], rfl, ⟨rfl, rfl⟩,
      ⟨q1, _, [], [(1, x)], rfl, ⟨hq1, rfl⟩,
      ⟨x, _, [(1, x)], [], rfl, ⟨[], ⟨hne, hall, rfl⟩, rfl⟩,
      ⟨q2, _, [], [], rfl, ⟨hq2, rfl⟩,
      ⟨_, _, [], [], rfl, ⟨rfl, rfl⟩,
      ⟨ws4, _, [], [], rfl, ⟨h4, rfl⟩, ⟨rfl, rfl⟩, rfl⟩,
      rfl⟩, rfl⟩, rfl⟩, rfl⟩, rfl⟩, rfl⟩, rfl⟩, rfl⟩, rfl⟩, rfl⟩, rfl⟩

/-- When all outcomes at the start position `pre` record the same captures and no earlier
start position has an outcome, `find` returns an outcome with these captures. -/
theorem find_unique_capture (r : Regex) (pre rest : List Char) (C : List (Nat × List Char))
    (hex : run r ⟨lastOr none pre, rest, []⟩ ≠ [])
    (hearly : ∀ a b, pre ++ rest = a ++ b → a.length < pre.length →
      run r ⟨lastOr none a, b, []⟩ = [])
    (hall : ∀ m ∈ run r ⟨lastOr none pre, rest, []⟩, m.caps = C) :
    ∃ start m, find r none (pre ++ rest) = some (start, m) ∧ m.caps = C := by
  cases hfind : find r none (pre ++ rest) with
  | none =>
    exact absurd ((find_eq_none_iff _ _ _).mp hfind pre rest rfl) hex
  | some sm =>
    obtain ⟨start, m⟩ := sm
    refine ⟨start, m, rfl, ?_⟩
    obtain ⟨a, ha, hhead, hmin⟩ := find_eq_some _ _ _ _ _ hfind
    have hm := List.mem_of_mem_head? hhead
    rcases Nat.lt_trichotomy a.length pre.length with hlt | heq | hgt
    · rw [hearly a start ha hlt] at hm
      simp at hm
    · obtain ⟨rfl, rfl⟩ := List.append_inj ha heq.symm
      exact hall m hm
    · exact absurd (hmin pre rest rfl hgt) hex

/-- An occurrence of a text whose first character does not occur again in it cannot start
inside `pre` and run over into a following copy, unless `pre` contains the text. -/
theorem no_straddle (c : Char) (tl pre0 pre x y : List Char) (hc : c ∉ tl)
    (h : pre0 ++ ((c :: tl) ++ x) = pre ++ ((c :: tl) ++ y))
    (hlt : pre0.length < pre.length) : (c :: tl) <:+: pre := by
  rcases List.append_eq_append_iff.mp h with ⟨d, hd, hx⟩ | ⟨d, hd, -⟩
  · rcases List.append_eq_append_iff.mp hx with ⟨e, he, -⟩ | ⟨e, he, hy⟩
    · exact ⟨pre0, e, by rw [hd, he]; simp⟩
    · cases d with
      | nil => simp [hd] at hlt
      | cons d0 d' =>
        simp only [List.cons_append, List.cons.injEq] at he
        obtain ⟨rfl, rfl⟩ := he
        cases e with
        | nil => exact ⟨pre0, [], by rw [hd]; simp⟩
        | cons e0 e' =>
          exfalso
          simp only [List.cons_append, List.cons.injEq] at hy
          apply hc
          rw [hy.1]
          simp
  · rw [hd] at hlt
    simp at hlt

/-- Two runs of class characters, each followed by a character outside the class of the
other run, that start at the same place are equal. -/
theorem two_class_unique (pX pU : Char → Bool) (X U : List Char) (f q : Char)
    (r r' : List Char) (hX : ∀ c ∈ X, pX c = true) (hU : ∀ c ∈ U, pU c = true)
    (hq : pX q = false) (hf : pU f = false) (h : X ++ f :: r' = U ++ q :: r) : X = U := by
  induction X generalizing U with
  | nil =>
    cases U with
    | nil => rfl
    | cons c l =>
      simp only [List.nil_append, List.cons_append, List.cons.injEq] at h
      have := hU c (List.mem_cons_self _ _)
      rw [← h.1, hf] at this
      exact absurd this (by simp)
  | cons c l ih =>
    cases U with
    | nil =>
      simp only [List.nil_append, List.cons_append, List.cons.injEq] at h
      have := hX c (List.mem_cons_self _ _)
      rw [h.1, hq] at this
      exact absurd this (by simp)
    | cons c' l' =>
      simp only [List.cons_append, List.cons.injEq] at h
      obtain ⟨rfl, h⟩ := h
      rw [ih l' (fun y hy => hX y (List.mem_cons_of_mem _ hy))
        (fun y hy => hU y (List.mem_cons_of_mem _ hy)) h]

/-- After an unquoted `u`, a longer capture needs a later `);`. -/
theorem unquoted_capture (x u q2 tail post : List Char) (rb : Char)
    (hu : ∀ c ∈ u, isQuote c = false ∧ c ≠ ')')
    (hq2 : OptQuote q2) (hrb : rb ≠ ')')
    (hpost : ¬ (");".toList <:+: post))
    (h : x ++ (q2 ++ (')' :: ';' :: tail)) = u ++ (')' :: ';' :: ' ' :: rb :: post)) :
    x = u := by
  obtain ⟨f, r', hfr, hf⟩ : ∃ f r', q2 ++ (')' :: ';' :: tail) = f :: r' ∧
      (isQuote f = true ∨ f = ')') := by
    rcases hq2 with rfl | ⟨c, rfl, hc⟩
    · exact ⟨')', _, rfl, Or.inr rfl⟩
    · exact ⟨c, _, rfl, Or.inl hc⟩
  have hfu : f ∉ u := by
    intro hmem
    rcases hf with hf | hf
    · rw [(hu f hmem).1] at hf
      exact absurd hf (by simp)
    · exact (hu f hmem).2 hf
  rw [hfr] at h
  rcases List.append_eq_append_iff.mp h with ⟨a, ha, hr⟩ | ⟨c, hc, hr⟩
  · cases a with
    | nil => simpa using ha.symm
    | cons a0 a' =>
      exfalso
      simp only [List.cons_append, List.cons.injEq] at hr
      apply hfu
      rw [ha, hr.1]
      simp
  · cases c with
    | nil => simpa using hc
    | cons c0 c' =>
      exfalso
      rw [← hfr] at hr
      simp only [List.cons_append, List.cons.injEq] at hr
      obtain ⟨-, hr⟩ := hr
      rw [← List.append_assoc] at hr
      generalize c' ++ q2 = e at hr
      rcases e with _ | ⟨e0, _ | ⟨e1, _ | ⟨e2, e⟩⟩⟩
      · simp at hr
      · simp at hr
      · simp only [List.cons_append, List.nil_append, List.cons.injEq] at hr
        exact hrb hr.2.2.1
      · simp only [List.cons_append, List.cons.injEq] at hr
        apply hpost
        have hlit : ");".toList = [')', ';'] := rfl
        exact ⟨e, tail, by rw [hr.2.2.2, hlit]; simp⟩

/-- At the start of the declared rule every match of the overlay pattern captures the
declared URL. -/
theorem overlay_capture_unique (Q U post w x post' : List Char)
    (hU : U ≠ []) (hUc : ∀ c ∈ U, isQuote c = false ∧ c ≠ ')')
    (hQ : Q = [] ∨ ∃ c, Q = [c] ∧ isQuote c = true)
    (hpost : Q = [] → ¬ (");".toList <:+: post))
    (hf : OverlayForm w x)
    (heq : w ++ post' = "#mainpicture .result_overlay".toList ++ (' ' :: ("\x7b".toList ++
      (' ' :: ("background-image:".toList ++ (' ' :: ("url(".toList ++ (Q ++ (U ++ (Q ++
        (')' :: ';' :: ' ' :: Char.ofNat 125 :: post))))))))))) :
    x = U := by
  obtain ⟨ws1, ws2, ws3, q1, q2, ws4, rfl, h1, h2, h3, h4, hq1, hq2, hne, hall⟩ := hf
  have hlb : "\x7b".toList = [Char.ofNat 123] := rfl
  have hrb : "\x7d".toList = [Char.ofNat 125] := rfl
  have hbg : "background-image:".toList = 'b' :: "ackground-image:".toList := rfl
  have hurl : "url(".toList = 'u' :: "rl(".toList := rfl
  have hcl : ");".toList = [')', ';'] := rfl
  have hsp : ∀ c ∈ [' '], isSpaceC c = true := by decide
  simp only [List.append_assoc, List.append_cancel_left_eq, hlb, hrb, hcl, List.cons_append,
    List.nil_append] at heq
  have heq1 : ws1 ++ Char.ofNat 123 :: _ = [' '] ++ Char.ofNat 123 :: _ := heq
  obtain ⟨-, -, e2⟩ := class_run_unique isSpaceC ws1 [' '] _ _ _ _ h1 hsp (by decide)
    (by decide) heq1
  clear heq heq1
  rw [hbg] at e2
  simp only [List.cons_append] at e2
  have heq2 : ws2 ++ 'b' :: _ = [' '] ++ 'b' :: _ := e2
  obtain ⟨-, -, e3⟩ := class_run_unique isSpaceC ws2 [' '] _ _ _ _ h2 hsp (by decide)
    (by decide) heq2
  clear e2 heq2
  rw [List.append_cancel_left_eq, hurl] at e3
  simp only [List.cons_append] at e3
  have heq3 : ws3 ++ 'u' :: _ = [' '] ++ 'u' :: _ := e3
  obtain ⟨-, -, e4⟩ := class_run_unique isSpaceC ws3 [' '] _ _ _ _ h3 hsp (by decide)
    (by decide) heq3
  clear e3 heq3
  rw [List.append_cancel_left_eq] at e4
  obtain ⟨x0, x', rfl⟩ := List.exists_cons_of_ne_nil hne
  obtain ⟨u0, U', rfl⟩ := List.exists_cons_of_ne_nil hU
  have hx0 : notQuote x0 = true := hall x0 (List.mem_cons_self _ _)
  have hu0 := hUc u0 (List.mem_cons_self _ _)
  have hnq : ∀ c, isQuote c = true → notQuote c = false := by
    intro c hc
    simp only [isQuote, Bool.or_eq_true, beq_iff_eq] at hc
    rcases hc with rfl | rfl <;> decide
  rcases hQ with rfl | ⟨qc, rfl, hqc⟩
  · rcases hq1 with rfl | ⟨c, rfl, hc⟩
    · simp only [List.nil_append] at e4
      exact unquoted_capture _ _ q2 _ post (Char.ofNat 125) hUc hq2 (by decide) (hpost rfl) e4
    · exfalso
      simp only [List.cons_append, List.nil_append, List.cons.injEq] at e4
      rw [e4.1, hu0.1] at hc
      exact absurd hc (by simp)
  · rcases hq1 with rfl | ⟨c, rfl, hc⟩
    · exfalso
      simp only [List.cons_append, List.nil_append, List.cons.injEq] at e4
      rw [e4.1, hnq qc hqc] at hx0
      exact absurd hx0 (by simp)
    · simp only [List.cons_append, List.nil_append, List.cons.injEq] at e4
      obtain ⟨-, hx, e5⟩ := e4
      subst hx
      rcases hq2 with rfl | ⟨c2, rfl, hc2⟩
      · simp only [List.nil_append] at e5
        have := two_class_unique notQuote (fun c => c != ')') x' U' ')' qc _ _
          (fun y hy => hall y (List.mem_cons_of_mem _ hy))
          (fun y hy => by simpa using (hUc y (List.mem_cons_of_mem _ hy)).2)
          (hnq qc hqc) (by decide) e5
        rw [this]
      · simp only [List.cons_append, List.nil_append] at e5
        have := two_class_unique notQuote (fun c => !isQuote c) x' U' c2 qc _ _
          (fun y hy => hall y (List.mem_cons_of_mem _ hy))
          (fun y hy => by simpa using (hUc y (List.mem_cons_of_mem _ hy)).1)
          (hnq qc hqc) (by simpa using hc2) e5
        rw [this]

theorem overlayURLOf_of_find_some (style : String) (start : List Char) (m : Cursor)
    (h : find overlayURLPattern none style.toList = some (start, m)) :
    overlayURLOf style = String.mk ((m.caps.lookup 1).getD []) := by
  have hn : overlayURLPattern.numGroups = 1 := by decide
  simp only [overlayURLOf, findStringSubmatch, h, hn]
  rfl

/-- The overlay scan on a style text whose first `#mainpicture` starts the declared rule. -/
theorem overlayURLOf_rule (pre Q U post : String)
    (hU : U ≠ "") (hUc : ∀ c ∈ U.toList, c ≠ sq ∧ c ≠ dq ∧ c ≠ '(' ∧ c ≠ ')')
    (hQ : Q = "" ∨ Q = "'" ∨ Q = "\"")
    (hpre : ¬ ("#mainpicture".toList <:+: pre.toList))
    (hpost : Q = "" → ¬ (");".toList <:+: post.toList)) :
    overlayURLOf (pre ++ "#mainpicture .result_overlay \x7b background-image: url(" ++ Q ++ U
      ++ Q ++ "); \x7d" ++ post) = U := by
  have hhead : "#mainpicture .result_overlay \x7b background-image: url(".toList =
      "#mainpicture .result_overlay".toList ++ (' ' :: ("\x7b".toList ++
        (' ' :: ("background-image:".toList ++ (' ' :: "url(".toList))))) := by decide
  have htail : "); \x7d".toList = [')', ';', ' ', Char.ofNat 125] := by decide
  have hUc' : ∀ c ∈ U.toList, isQuote c = false ∧ c ≠ ')' := by
    intro c hc
    obtain ⟨h1, h2, -, h4⟩ := hUc c hc
    refine ⟨?_, h4⟩
    simp [isQuote, h1, h2]
  have hQ' : Q.toList = [] ∨ ∃ c, Q.toList = [c] ∧ isQuote c = true := by
    rcases hQ with rfl | rfl | rfl
    · exact Or.inl rfl
    · exact Or.inr ⟨sq, by decide, by decide⟩
    · exact Or.inr ⟨dq, by decide, by decide⟩
  have hpost' : Q.toList = [] → ¬ (");".toList <:+: post.toList) := by
    intro hq
    apply hpost
    apply String.ext
    simpa [String.toList] using hq
  obtain ⟨rest, hrest⟩ : ∃ rest, rest = "#mainpicture .result_overlay".toList ++
      (' ' :: ("\x7b".toList ++ (' ' :: ("background-image:".toList ++ (' ' :: ("url(".toList ++
        (Q.toList ++ (U.toList ++ (Q.toList ++ (')' :: ';' :: ' ' :: Char.ofNat 125 ::
          post.toList)))))))))) := ⟨_, rfl⟩
  have hstyle : (pre ++ "#mainpicture .result_overlay \x7b background-image: url(" ++ Q ++ U
      ++ Q ++ "); \x7d" ++ post).toList = pre.toList ++ rest := by
    rw [hrest]
    simp only [toList_append, hhead, htail, List.append_assoc, List.cons_append,
      List.nil_append]
  obtain ⟨start, m, hfind, hcaps⟩ := find_unique_capture overlayURLPattern pre.toList rest
    [(1, U.toList)] (by
      apply List.ne_nil_of_mem
      refine (mem_run _ _ _ _ _).mpr ⟨_, post.toList, [(1, U.toList)], ?_,
        (Sem_overlay_iff _ _ _ _).mpr ⟨U.toList, ⟨[' '], [' '], [' '], Q.toList, Q.toList,
          [' '], rfl, by decide, by decide, by decide, by decide, hQ', hQ',
          toList_ne_nil U hU, ?_⟩, rfl⟩, rfl⟩
      · have hcl : ");".toList = [')', ';'] := rfl
        have hrb : "\x7d".toList = [Char.ofNat 125] := rfl
        rw [hrest]
        simp only [hcl, hrb, List.append_assoc, List.cons_append, List.nil_append]
      · intro c hc
        have := (hUc' c hc).1
        simp only [isQuote, Bool.or_eq_false_iff, beq_eq_false_iff_ne, ne_eq] at this
        simp [notQuote, this.1, this.2])
    (by
      intro a b hab hlt
      by_contra hne
      obtain ⟨m, hm⟩ := List.exists_mem_of_ne_nil _ hne
      obtain ⟨w, rest', cs, hw, hs, -⟩ := (mem_run _ _ _ _ _).mp hm
      obtain ⟨x, ⟨ws1, ws2, ws3, q1, q2, ws4, rfl, -⟩, -⟩ := (Sem_overlay_iff _ _ _ _).mp hs
      have hsel : "#mainpicture .result_overlay".toList =
          '#' :: "mainpicture .result_overlay".toList := rfl
      rw [hw, hrest, hsel] at hab
      simp only [List.append_assoc] at hab
      obtain ⟨s, t, hst⟩ := no_straddle '#' "mainpicture .result_overlay".toList a pre.toList
        _ _ (by decide) hab.symm hlt
      apply hpre
      refine ⟨s, " .result_overlay".toList ++ t, ?_⟩
      rw [← hst]
      have : '#' :: "mainpicture .result_overlay".toList =
          "#mainpicture".toList ++ " .result_overlay".toList := by decide
      rw [this]
      simp only [List.append_assoc])
    (by
      intro m hm
      obtain ⟨w, rest', cs, hw, hs, rfl⟩ := (mem_run _ _ _ _ _).mp hm
      obtain ⟨x, hf, rfl⟩ := (Sem_overlay_iff _ _ _ _).mp hs
      rw [hrest] at hw
      rw [overlay_capture_unique Q.toList U.toList post.toList w x rest' (toList_ne_nil U hU)
        hUc' hQ' hpost' hf hw.symm]
      rfl)
  rw [← hstyle] at hfind
  rw [overlayURLOf_of_find_some _ start m hfind, hcaps]
  rfl

/-- The overlay scan recovers the declared URL: for a document whose style text is
`pre ++ "#mainpicture .result_overlay \x7b background-image: url(" ++ Q ++ U ++ Q ++ "); \x7d" ++ post`
with `U` non-empty and free of quotes and parentheses, `Q` empty, a single quote or a double
quote, and `pre` free of `#mainpicture`, the `overlayUrl` field equals `U` whenever `Q` is a
quote, and also for an empty `Q` when `post` contains no `);`. -/
theorem overlayUrl_declared (doc : Document) (pre Q U post : String)
    (hU : U ≠ "") (hUc : ∀ c ∈ U.toList, c ≠ sq ∧ c ≠ dq ∧ c ≠ '(' ∧ c ≠ ')')
    (hQ : Q = "" ∨ Q = "'" ∨ Q = "\"")
    (hpre : ¬ ("#mainpicture".toList <:+: pre.toList))
    (hpost : Q = "" → ¬ (");".toList <:+: post.toList))
    (hdoc : (doc.find "style").text =
      pre ++ "#mainpicture .result_overlay \x7b background-image: url(" ++ Q ++ U ++ Q ++
        "); \x7d" ++ post) :
    (extractFields doc).downloads.overlayUrl = U := by
  have h := overlayURLOf_rule pre Q U post hU hUc hQ hpre hpost
  rw [← hdoc] at h
  exact h

/-- C10 at the failing input: the URL `https://cdn.example/o.jpg` is free of quotes and
parentheses and nothing precedes the declared rule, yet with the URL unquoted and one
further rule after it the `overlayUrl` field is not the URL: the capture runs on to the
last `); \x7d` of the text.  With the same URL in quotes and the same further rule the
field is the URL. -/
theorem overlayUrl_overrun :
    "https://cdn.example/o.jpg" ≠ "" ∧
    (∀ c ∈ "https://cdn.example/o.jpg".toList, c ≠ sq ∧ c ≠ dq ∧ c ≠ '(' ∧ c ≠ ')') ∧
    ¬ ("#mainpicture".toList <:+: "".toList) ∧
    (extractFields ⟨fun sel => if sel = "style" then
        [⟨"" ++ "#mainpicture .result_overlay \x7b background-image: url(" ++ "" ++
          "https://cdn.example/o.jpg" ++ "" ++ "); \x7d" ++
          " .x \x7b background-image: url(v.png); \x7d", []⟩] else []⟩).downloads.overlayUrl
      = "https://cdn.example/o.jpg); \x7d .x \x7b background-image: url(v.png" ∧
    (extractFields ⟨fun sel => if sel = "style" then
        [⟨"" ++ "#mainpicture .result_overlay \x7b background-image: url(" ++ "'" ++
          "https://cdn.example/o.jpg" ++ "'" ++ "); \x7d" ++
          " .x \x7b background-image: url(v.png); \x7d", []⟩] else []⟩).downloads.overlayUrl
      = "https://cdn.example/o.jpg" := by
  decide

/-! ## The request body -/

/-- C5 at the failing input: the form body is built without any URL-encoding, so for the
accepted URL `https://www.tiktok.com/@u/video/1?is_from_webapp=1&sender_device=pc` the
body holds four `key=value` pairs and the `id` field is cut at the first `&`. -/
theorem formData_not_encoded :
    validateTikTokURL "https://www.tiktok.com/@u/video/1?is_from_webapp=1&sender_device=pc"
      = true ∧
    (postRequest "https://www.tiktok.com/@u/video/1?is_from_webapp=1&sender_device=pc"
      "tok").body =
      "id=https://www.tiktok.com/@u/video/1?is_from_webapp=1&sender_device=pc&locale=en&tt=tok" ∧
    formPairs (formData
      "https://www.tiktok.com/@u/video/1?is_from_webapp=1&sender_device=pc" "tok") =
      [("id", "https://www.tiktok.com/@u/video/1?is_from_webapp=1"), ("sender_device", "pc"),
        ("locale", "en"), ("tt", "tok")] := by
  decide

/-! ## Field extraction -/

theorem trimSpace_empty : trimSpace "" = "" := by decide

theorem overlayURLOf_no_match (style : String)
    (h : matchString overlayURLPattern style = false) : overlayURLOf style = "" := by
  unfold matchString at h
  have hnone : find overlayURLPattern none style.toList = none := by
    cases hf : find overlayURLPattern none style.toList with
    | none => rfl
    | some x => rw [hf] at h; simp at h
  simp only [overlayURLOf, findStringSubmatch, hnone]
  rfl

theorem dropWhile_all (p : Char → Bool) (a r : List Char) (ha : ∀ c ∈ a, p c = true) :
    (a ++ r).dropWhile p = r.dropWhile p := by
  induction a with
  | nil => rfl
  | cons x l ih =>
    have hx : p x = true := ha x (List.mem_cons_self _ _)
    simp only [List.cons_append, List.dropWhile, hx]
    exact ih (fun c hc => ha c (List.mem_cons_of_mem _ hc))

theorem dropWhile_head (p : Char → Bool) (l : List Char)
    (h : ∀ c, l.head? = some c → p c = false) : l.dropWhile p = l := by
  cases l with
  | nil => rfl
  | cons x l =>
    have hx : p x = false := h x rfl
    simp only [List.dropWhile, hx]

/-- The function `trimSpace` removes exactly the leading and trailing white space. -/
theorem trimSpace_of_TrimOf (s m : String) (h : TrimOf s m) : trimSpace s = m := by
  obtain ⟨a, b, hs, ha, hb, hm1, hm2⟩ := h
  have hrev : ∀ c ∈ b.reverse, goIsSpace c = true := fun c hc => hb c (List.mem_reverse.mp hc)
  have hlast : ∀ c, m.toList.reverse.head? = some c → goIsSpace c = false := by
    intro c hc
    rw [List.head?_reverse] at hc
    exact hm2 c hc
  unfold trimSpace
  rw [hs, dropWhile_all goIsSpace a _ ha]
  cases hm : m.toList with
  | nil =>
    have h0 : (([] : List Char) ++ b).dropWhile goIsSpace = [] := by
      have := dropWhile_all goIsSpace b [] hb
      simpa using this
    rw [h0]
    apply String.ext
    simpa [String.toList] using hm.symm
  | cons x l =>
    rw [← hm, dropWhile_head goIsSpace (m.toList ++ b) (by
      intro c hc
      rw [hm] at hc
      simp only [List.cons_append, List.head?_cons, Option.some.injEq] at hc
      exact hm1 c (by rw [hm, ← hc]; rfl))]
    rw [List.reverse_append, dropWhile_all goIsSpace _ _ hrev,
      dropWhile_head goIsSpace _ hlast, List.reverse_reverse]
    rfl

theorem join_singleton (s : String) : String.join [s] = s := by
  apply String.ext
  simp [String.join]

/-- C6: field extraction is best-effort and never fatal.  For every successfully parsed
response document the call returns a result and no error.  A text field whose selector
matches nothing is empty; an attribute field whose selector matches nothing, or whose
first matched element lacks the attribute, is empty; the overlay field is empty when the
pattern does not match the style text.  Every other field keeps the value its own
selector yields: a text field is the combined text of the matched elements (of the first
one for the like count) without its leading and trailing white space, an attribute field
is the attribute of the first matched element, the overlay field is group 1 of the
leftmost match in the combined style text; and each field is the same in any two documents
that agree on its selector.  In particular without an `a.music` element `musicUrl` is
empty and the call succeeds. -/
theorem scrapeSSSTik_best_effort (net : Network) (url token : String) (doc : Document)
    (h : net.post (postRequest url token) = .parsed doc) :
    scrapeSSSTik net url token = .ok (extractFields doc) ∧
    ((doc.find "h2" = [] → (extractFields doc).username = "") ∧
     (doc.find ".maintext" = [] → (extractFields doc).description = "") ∧
     (doc.find "div.trending-actions > div.justify-content-start" = [] →
       (extractFields doc).statistics.likeCount = "") ∧
     (doc.find "div.trending-actions > div.justify-content-center > div" = [] →
       (extractFields doc).statistics.commentCount = "") ∧
     (doc.find "div.trending-actions > div.justify-content-end > div" = [] →
       (extractFields doc).statistics.shareCount = "") ∧
     ((doc.find "img.result_author" = [] ∨
         ∃ n l, doc.find "img.result_author" = n :: l ∧ n.attrs.lookup "src" = none) →
       (extractFields doc).downloads.avatarUrl = "") ∧
     ((doc.find "a.without_watermark" = [] ∨
         ∃ n l, doc.find "a.without_watermark" = n :: l ∧ n.attrs.lookup "href" = none) →
       (extractFields doc).downloads.videoUrl = "") ∧
     ((doc.find "a.music" = [] ∨
         ∃ n l, doc.find "a.music" = n :: l ∧ n.attrs.lookup "href" = none) →
       (extractFields doc).downloads.musicUrl = "") ∧
     (matchString overlayURLPattern (doc.find "style").text = false →
       (extractFields doc).downloads.overlayUrl = "")) ∧
    ((∀ m, TrimOf (String.join ((doc.find "h2").map Node.text)) m →
       (extractFields doc).username = m) ∧
     (∀ m, TrimOf (String.join ((doc.find ".maintext").map Node.text)) m →
       (extractFields doc).description = m) ∧
     (∀ n l m, doc.find "div.trending-actions > div.justify-content-start" = n :: l →
       TrimOf n.text m → (extractFields doc).statistics.likeCount = m) ∧
     (∀ m, TrimOf (String.join ((doc.find
         "div.trending-actions > div.justify-content-center > div").map Node.text)) m →
       (extractFields doc).statistics.commentCount = m) ∧
     (∀ m, TrimOf (String.join ((doc.find
         "div.trending-actions > div.justify-content-end > div").map Node.text)) m →
       (extractFields doc).statistics.shareCount = m) ∧
     (∀ n l v, doc.find "img.result_author" = n :: l → n.attrs.lookup "src" = some v →
       (extractFields doc).downloads.avatarUrl = v) ∧
     (∀ n l v, doc.find "a.without_watermark" = n :: l → n.attrs.lookup "href" = some v →
       (extractFields doc).downloads.videoUrl = v) ∧
     (∀ n l v, doc.find "a.music" = n :: l → n.attrs.lookup "href" = some v →
       (extractFields doc).downloads.musicUrl = v) ∧
     (∀ whole g more,
       findStringSubmatch overlayURLPattern (String.join ((doc.find "style").map Node.text)) =
         whole :: g :: more →
       (extractFields doc).downloads.overlayUrl = g)) ∧
    (∀ doc' : Document,
      (doc'.find "h2" = doc.find "h2" →
        (extractFields doc').username = (extractFields doc).username) ∧
      (doc'.find ".maintext" = doc.find ".maintext" →
        (extractFields doc').description = (extractFields doc).description) ∧
      (doc'.find "div.trending-actions > div.justify-content-start" =
          doc.find "div.trending-actions > div.justify-content-start" →
        (extractFields doc').statistics.likeCount = (extractFields doc).statistics.likeCount) ∧
      (doc'.find "div.trending-actions > div.justify-content-center > div" =
          doc.find "div.trending-actions > div.justify-content-center > div" →
        (extractFields doc').statistics.commentCount =
          (extractFields doc).statistics.commentCount) ∧
      (doc'.find "div.trending-actions > div.justify-content-end > div" =
          doc.find "div.trending-actions > div.justify-content-end > div" →
        (extractFields doc').statistics.shareCount =
          (extractFields doc).statistics.shareCount) ∧
      (doc'.find "img.result_author" = doc.find "img.result_author" →
        (extractFields doc').downloads.avatarUrl = (extractFields doc).downloads.avatarUrl) ∧
      (doc'.find "a.without_watermark" = doc.find "a.without_watermark" →
        (extractFields doc').downloads.videoUrl = (extractFields doc).downloads.videoUrl) ∧
      (doc'.find "a.music" = doc.find "a.music" →
        (extractFields doc').downloads.musicUrl = (extractFields doc).downloads.musicUrl) ∧
      (doc'.find "style" = doc.find "style" →
        (extractFields doc').downloads.overlayUrl =
          (extractFields doc).downloads.overlayUrl)) := by
  have hattr : ∀ (s : Selection) (name : String),
      (s = [] ∨ ∃ n l, s = n :: l ∧ n.attrs.lookup name = none) → (s.attr name).1 = "" := by
    intro s name hs
    rcases hs with rfl | ⟨n, l, rfl, hn⟩
    · rfl
    · simp [Selection.attr, hn]
  have hattr' : ∀ (s : Selection) (name : String) (n : Node) (l : List Node) (v : String),
      s = n :: l → n.attrs.lookup name = some v → (s.attr name).1 = v := by
    intro s name n l v hs hn
    subst hs
    simp [Selection.attr, hn]
  refine ⟨by simp [scrapeSSSTik, h], ⟨?_, ?_, ?_, ?_, ?_, ?_, ?_, ?_, ?_⟩,
    ⟨?_, ?_, ?_, ?_, ?_, ?_, ?_, ?_, ?_⟩, ?_⟩
  · intro h0
    simp only [extractFields, h0]
    exact trimSpace_empty
  · intro h0
    simp only [extractFields, h0]
    exact trimSpace_empty
  · intro h0
    simp only [extractFields, h0]
    exact trimSpace_empty
  · intro h0
    simp only [extractFields, h0]
    exact trimSpace_empty
  · intro h0
    simp only [extractFields, h0]
    exact trimSpace_empty
  · exact hattr _ _
  · exact hattr _ _
  · exact hattr _ _
  · exact overlayURLOf_no_match _
  · intro m hm
    exact trimSpace_of_TrimOf _ m hm
  · intro m hm
    exact trimSpace_of_TrimOf _ m hm
  · intro n l m hn hm
    simp only [extractFields, hn]
    have : Selection.text (Selection.eq (n :: l) 0) = n.text := join_singleton n.text
    rw [this]
    exact trimSpace_of_TrimOf _ m hm
  · intro m hm
    exact trimSpace_of_TrimOf _ m hm
  · intro m hm
    exact trimSpace_of_TrimOf _ m hm
  · exact fun n l v => hattr' _ _ n l v
  · exact fun n l v => hattr' _ _ n l v
  · exact fun n l v => hattr' _ _ n l v
  · intro whole g more hfs
    show overlayURLOf (doc.find "style").text = g
    unfold overlayURLOf Selection.text
    rw [hfs]
    simp
  · intro doc'
    refine ⟨?_, ?_, ?_, ?_, ?_, ?_, ?_, ?_, ?_⟩ <;>
    · intro h0
      simp only [extractFields, h0]

theorem scrapeSSSTik_best_effort_witness :
    scrapeSSSTik (sampleNetwork "") "https://www.tiktok.com/@u/video/1" "tok" =
      .ok ⟨"alice", "hello", ⟨"10", "2", "1"⟩,
        ⟨"https://cdn.example/a.jpg", "https://cdn.example/o.jpg",
          "https://cdn.example/v.mp4", ""⟩⟩ :=
  (scrapeSSSTik_best_effort (sampleNetwork "") "https://www.tiktok.com/@u/video/1" "tok"
    sampleDocument rfl).1.trans (by decide)

/-! ## The run of the program -/

/-- C7: in a run that reaches token extraction (the arguments hold a URL accepted by
`validateTikTokURL`) and fetches a homepage body without the token shape, `main` prints
exactly the one line "unable to extract SSSTik token", so no result block, and none of the
requests that go out is a POST. -/
theorem main_token_missing (args : List String) (net : Network) (b : String)
    (hargs : 2 ≤ args.length)
    (hurl : validateTikTokURL (" ".intercalate (args.drop 1)) = true)
    (hget : net.get baseURL = .body b) (hb : ¬ ContainsToken b) :
    (main args net).stdout = "unable to extract SSSTik token\n" ∧
      (∀ r ∈ (main args net).requests, r.method ≠ "POST") := by
  have htok : extractToken net = .error "unable to extract SSSTik token" := by
    simp only [extractToken, hget]
    exact extractTokenFrom_of_find_none b ((find_token_none_iff b).mpr hb)
  have hmain : main args net = ⟨getRequests net, "unable to extract SSSTik token\n"⟩ := by
    unfold main
    rw [if_neg (by omega)]
    simp only [hurl, htok]
    rfl
  rw [hmain]
  refine ⟨rfl, ?_⟩
  intro r hr
  simp only [getRequests, List.mem_cons, List.mem_map] at hr
  rcases hr with rfl | ⟨hop, -, rfl⟩
  · decide
  · show "GET" ≠ "POST"
    decide

theorem main_token_missing_witness :
    (main ["sstiktok", "https://www.tiktok.com/@user/video/123"]
        (sampleNetwork "<html></html>")).stdout = "unable to extract SSSTik token\n" ∧
      (∀ r ∈ (main ["sstiktok", "https://www.tiktok.com/@user/video/123"]
        (sampleNetwork "<html></html>")).requests, r.method ≠ "POST") :=
  main_token_missing ["sstiktok", "https://www.tiktok.com/@user/video/123"]
    (sampleNetwork "<html></html>") "<html></html>" (by decide) (by decide) rfl
    ((find_token_none_iff _).mp (by decide))

/-! ## The printed result -/

/-- C8: `printFormattedResult` writes the fixed layout in the field order of the data
model: username, description, like/comment/share counts, avatar/overlay/video/music
URLs. -/
theorem printFormattedResult_layout (u d l c s a o v m : String) :
    printFormattedResult ⟨u, d, ⟨l, c, s⟩, ⟨a, o, v, m⟩⟩ =
      "Result:\n\tUsername:\t" ++ u ++ "\n\tDescription:\t" ++ d ++
      "\n\tStatistics:\n\t\tLike Count:\t" ++ l ++ "\n\t\tComment Count:\t" ++ c ++
      "\n\t\tShare Count:\t" ++ s ++ "\n\tDownloads:\n\t\tAvatar URL:\t" ++ a ++
      "\n\t\tOverlay URL:\t" ++ o ++ "\n\t\tVideo URL:\t" ++ v ++ "\n\t\tMusic URL:\t" ++ m ++
      "\n" := by
  have h1 : "Result:\n\tUsername:\t" = "Result:\n" ++ "\tUsername:\t" := by decide
  have h2 : "\n\tDescription:\t" = "\n" ++ "\tDescription:\t" := by decide
  have h3 : "\n\tStatistics:\n\t\tLike Count:\t" =
      "\n" ++ ("\tStatistics:\n" ++ "\t\tLike Count:\t") := by decide
  have h4 : "\n\t\tComment Count:\t" = "\n" ++ "\t\tComment Count:\t" := by decide
  have h5 : "\n\t\tShare Count:\t" = "\n" ++ "\t\tShare Count:\t" := by decide
  have h6 : "\n\tDownloads:\n\t\tAvatar URL:\t" =
      "\n" ++ ("\tDownloads:\n" ++ "\t\tAvatar URL:\t") := by decide
  have h7 : "\n\t\tOverlay URL:\t" = "\n" ++ "\t\tOverlay URL:\t" := by decide
  have h8 : "\n\t\tVideo URL:\t" = "\n" ++ "\t\tVideo URL:\t" := by decide
  have h9 : "\n\t\tMusic URL:\t" = "\n" ++ "\t\tMusic URL:\t" := by decide
  rw [h1, h2, h3, h4, h5, h6, h7, h8, h9]
  simp only [printFormattedResult, String.append_assoc]
end SSTik
